import Mathlib

/-!
Verification of the image-steganography codec (IST).

Shallow embedding of the library's core routines:

* `encode_data` / `decode_data` — the bit codec of `src/encoder.py`
  (`Encoder.encode_data`) and `IST/decoder.py` (`Decoder.decode_data`).
  Pixels are lists of channel values (the Python tuples); the channel
  layout (`image.mode`) and the active channel set are lists of
  characters; per-channel counters are a function `Char → Nat`
  (the Python dict keyed by mode letters).
* `generate_pattern` / `calculate_max_data_size` — `IST/pattern.py`.
* `static_compress_data` / `static_decompress_data`,
  `static_apply_redundancy` / `static_reconstruct_redundancy` —
  `IST/pattern.py`; external libraries (zlib, reedsolo's `RSCodec`)
  enter as function parameters.
* `rs_encode` / `rs_decode` — the Reed-Solomon chunking of
  `src/utils.py`, with the correction factor as an exact rational
  (the Python code patches float noise with `round(·, 10)` precisely
  so that the arithmetic behaves like exact rationals).

Python specifics mirrored throughout: `format(v, '08b')` is
`natToBits 8 v` (values are channel bytes `< 256`), string slicing
`s[:-k]` / `s[-k:]` is `take (8-k)` / `drop (8-k)` on 8-character
strings, `int(s, 2)` is `bitsFromList`, and exceptions are `Option`
(`none` = raise).
-/

namespace IST

/-- Bits of `n` written MSB-first with width `w`: Python `format(n, '0wb')`
for `n < 2 ^ w`. -/
def natToBits : Nat → Nat → List Bool
  | 0, _ => []
  | w + 1, n => natToBits w (n / 2) ++ [n % 2 == 1]

/-- Python `int(s, 2)` on a bit string, MSB first. -/
def bitsFromList (l : List Bool) : Nat :=
  l.foldl (fun n b => 2 * n + (if b then 1 else 0)) 0

/-- The eight bits of one payload byte, MSB first: `format(byte, '08b')`. -/
def byteToBits (b : Nat) : List Bool := natToBits 8 b

/-- Python `''.join(format(byte, '08b') for byte in data)`. -/
def bytesToBits (data : List Nat) : List Bool := data.flatMap byteToBits

/-! ## Bit codec: `Encoder.encode_data` and `Decoder.decode_data`

The encoder walks pixels from `offset`, and within each pixel walks the
channel values; the letter of a channel position is
`image.mode[channel_index % len(image.mode)]`.  An eligible channel
(letter in the active set) is a write slot when its per-channel counter
is `≡ 0 (mod byte_spacing)`; a write replaces the low `bit_frequency`
bits of the value with the next bits of the payload.  The
`pixel_index >= offset` conjunct of the source is always true inside the
loop (enumeration starts at `offset`) and is dropped here. -/

/-- One update of the Python dict `channel_counters`. -/
def bump (c : Char → Nat) (ch : Char) : Char → Nat :=
  fun x => if x = ch then c ch + 1 else c x

/-- Result of the per-pixel channel loop of `Encoder.encode_data`. -/
structure ChanStep where
  out : List Nat
  bitIdx : Nat
  counters : Char → Nat

/-- The `for channel_index, value in enumerate(pixel)` loop of
`Encoder.encode_data`: `ci` is `channel_index`, `i` is `bit_index`,
`c` is `channel_counters`. -/
def encodeChannels (mode channels : List Char) (bitFrequency byteSpacing : Nat)
    (dataBits : List Bool) :
    List Nat → Nat → Nat → (Char → Nat) → ChanStep
  | [], _, i, c => ⟨[], i, c⟩
  | v :: vs, ci, i, c =>
    let ch := mode.getD (ci % mode.length) ' '
    if ch ∈ channels then
      if i < dataBits.length then
        if c ch % byteSpacing = 0 then
          let newBits := (natToBits 8 v).take (8 - bitFrequency)
            ++ (dataBits.drop i).take bitFrequency
          let s := encodeChannels mode channels bitFrequency byteSpacing dataBits
            vs (ci + 1) (i + bitFrequency) (bump c ch)
          ⟨bitsFromList newBits :: s.out, s.bitIdx, s.counters⟩
        else
          let s := encodeChannels mode channels bitFrequency byteSpacing dataBits
            vs (ci + 1) i (bump c ch)
          ⟨v :: s.out, s.bitIdx, s.counters⟩
      else
        let s := encodeChannels mode channels bitFrequency byteSpacing dataBits
          vs (ci + 1) i (bump c ch)
        ⟨v :: s.out, s.bitIdx, s.counters⟩
    else
      let s := encodeChannels mode channels bitFrequency byteSpacing dataBits
        vs (ci + 1) i c
      ⟨v :: s.out, s.bitIdx, s.counters⟩

/-- Result of the pixel loop of `Encoder.encode_data`. -/
structure EncLoop where
  out : List (List Nat)
  lastPixel : Nat
  bitIdx : Nat

/-- The `for pixel_index, pixel in enumerate(pixels[offset:], start=offset)`
loop: after each pixel, the loop breaks once every payload bit is consumed,
recording `last_pixel` (initialized to `0` in the source, hence the `0` in
the nil case). -/
def encodePixels (mode channels : List Char) (bitFrequency byteSpacing : Nat)
    (dataBits : List Bool) :
    List (List Nat) → Nat → Nat → (Char → Nat) → EncLoop
  | [], _, i, _ => ⟨[], 0, i⟩
  | p :: ps, idx, i, c =>
    let s := encodeChannels mode channels bitFrequency byteSpacing dataBits p 0 i c
    if dataBits.length ≤ s.bitIdx then
      ⟨[s.out], idx, s.bitIdx⟩
    else
      let r := encodePixels mode channels bitFrequency byteSpacing dataBits
        ps (idx + 1) s.bitIdx s.counters
      ⟨s.out :: r.out, r.lastPixel, r.bitIdx⟩

/-- `Encoder.encode_data(pixels, data, channels, bit_frequency, byte_spacing,
offset)`: returns the new raster and `last_pixel - offset` (an `Int`, as the
Python difference can be negative when the loop never breaks). -/
def encode_data (mode : List Char) (pixels : List (List Nat)) (data : List Nat)
    (channels : List Char) (bitFrequency byteSpacing offset : Nat) :
    List (List Nat) × Int :=
  let dataBits := bytesToBits data
  let r := encodePixels mode channels bitFrequency byteSpacing dataBits
    (pixels.drop offset) offset 0 (fun _ => 0)
  (pixels.take offset ++ r.out ++ pixels.drop (r.lastPixel + 1),
    (r.lastPixel : Int) - (offset : Int))

/-- Result of the per-pixel channel loop of `Decoder.decode_data`:
`brk` records whether the `break` on `len(data_bits) >= data_length * 8`
fired (it is checked after every channel, eligible or not). -/
structure DecChan where
  acc : List Bool
  counters : Char → Nat
  brk : Bool

/-- The channel loop of `Decoder.decode_data`. -/
def decodeChannels (mode channels : List Char)
    (bitFrequency byteSpacing targetLen : Nat) :
    List Nat → Nat → List Bool → (Char → Nat) → DecChan
  | [], _, acc, c => ⟨acc, c, false⟩
  | v :: vs, ci, acc, c =>
    let ch := mode.getD (ci % mode.length) ' '
    if ch ∈ channels then
      let acc1 := if c ch % byteSpacing = 0 then
          acc ++ (natToBits 8 v).drop (8 - bitFrequency)
        else acc
      if targetLen ≤ acc1.length then ⟨acc1, bump c ch, true⟩
      else decodeChannels mode channels bitFrequency byteSpacing targetLen
        vs (ci + 1) acc1 (bump c ch)
    else
      if targetLen ≤ acc.length then ⟨acc, c, true⟩
      else decodeChannels mode channels bitFrequency byteSpacing targetLen
        vs (ci + 1) acc c

/-- Result of the pixel loop of `Decoder.decode_data`. -/
structure DecLoop where
  acc : List Bool
  lastPixel : Nat

/-- The pixel loop of `Decoder.decode_data` (`last_pixel` is initialized to
`offset` in the source, hence the nil case). -/
def decodePixels (mode channels : List Char)
    (bitFrequency byteSpacing targetLen offset : Nat) :
    List (List Nat) → Nat → List Bool → (Char → Nat) → DecLoop
  | [], _, acc, _ => ⟨acc, offset⟩
  | p :: ps, idx, acc, c =>
    let s := decodeChannels mode channels bitFrequency byteSpacing targetLen p 0 acc c
    if s.brk then ⟨s.acc, idx⟩
    else decodePixels mode channels bitFrequency byteSpacing targetLen offset
      ps (idx + 1) s.acc s.counters

/-- The byte-assembly loop of `Decoder.decode_data`:
`int(data_bits[i:i+8], 2)` for `i in range(0, data_length * 8, 8)`. -/
def bitsToBytes (bits : List Bool) (dataLength : Nat) : List Nat :=
  (List.range dataLength).map (fun k => bitsFromList ((bits.drop (8 * k)).take 8))

/-- `Decoder.decode_data(pixels, data_length, channels, bit_frequency,
byte_spacing, offset)`: returns the bytes and `last_pixel - offset`. -/
def decode_data (mode : List Char) (pixels : List (List Nat)) (dataLength : Nat)
    (channels : List Char) (bitFrequency byteSpacing offset : Nat) :
    List Nat × Int :=
  let r := decodePixels mode channels bitFrequency byteSpacing (dataLength * 8)
    offset (pixels.drop offset) offset [] (fun _ => 0)
  (bitsToBytes r.acc dataLength, (r.lastPixel : Int) - (offset : Int))

/-- Invariant tying one encoder channel-loop result to the decoder's run over
its output: the decoder either tracks the encoder exactly without breaking,
or breaks having accumulated the whole payload. -/
def SyncOk (mode channels : List Char) (bf bs : Nat) (db : List Bool)
    (ci i : Nat) (c : Char → Nat) (s : ChanStep) : Prop :=
  bf ∣ s.bitIdx ∧ s.bitIdx ≤ db.length ∧ (∀ v ∈ s.out, v < 256) ∧
  ((s.bitIdx < db.length ∧
      decodeChannels mode channels bf bs db.length s.out ci (db.take i) c
        = ⟨db.take s.bitIdx, s.counters, false⟩) ∨
   (s.bitIdx = db.length ∧
      (decodeChannels mode channels bf bs db.length s.out ci (db.take i) c).acc = db ∧
      (decodeChannels mode channels bf bs db.length s.out ci (db.take i) c).brk = true))

/-! ## Write-slot characterisation (non-invasiveness)

`slotChannels` / `slotPixels` replay the traversal's per-channel counters
and mark exactly the positions that are eligible write slots (active channel
letter, counter `≡ 0 (mod byte_spacing)`); they are the specification-side
mirror of the counter logic of `Encoder.encode_data` used to state which
channel values encoding may touch. -/

def slotChannels (mode channels : List Char) (byteSpacing : Nat) :
    List Nat → Nat → (Char → Nat) → (List Bool × (Char → Nat))
  | [], _, c => ([], c)
  | _ :: vs, ci, c =>
    let ch := mode.getD (ci % mode.length) ' '
    if ch ∈ channels then
      let r := slotChannels mode channels byteSpacing vs (ci + 1) (bump c ch)
      (decide (c ch % byteSpacing = 0) :: r.1, r.2)
    else
      let r := slotChannels mode channels byteSpacing vs (ci + 1) c
      (false :: r.1, r.2)

def slotPixels (mode channels : List Char) (byteSpacing : Nat) :
    List (List Nat) → (Char → Nat) → List (List Bool)
  | [], _ => []
  | p :: ps, c =>
    (slotChannels mode channels byteSpacing p 0 c).1
      :: slotPixels mode channels byteSpacing ps
          (slotChannels mode channels byteSpacing p 0 c).2

/-! ## Python string primitives

The pattern-level code manipulates Python `str` values; they are embedded as
`List Char` (`"x".data` is the character list of a literal), with `lower`,
`upper` and `strip` mirrored over ASCII. -/

def pyLower (s : List Char) : List Char := s.map Char.toLower

def pyUpper (s : List Char) : List Char := s.map Char.toUpper

def pyStrip (s : List Char) : List Char :=
  ((s.dropWhile Char.isWhitespace).reverse.dropWhile Char.isWhitespace).reverse

/-! ## Compression layer: `Pattern.static_compress_data` /
`Pattern.static_decompress_data`

zlib enters as a function parameter `zc` (the encoder only inspects the
length of its output).  In `static_decompress_data` the source compares the
`int` flag byte `data[0]` against the `bytes` literal `b'1'`; in Python an
`int` never equals a `bytes`, so the comparison is always `False` and the
function returns the whole flagged buffer unchanged — mirrored here by the
explicit `pyIntEqBytes` comparison. -/

/-- Python `data[0] == b'1'` with `data[0] : int`: always `False`. -/
def pyIntEqBytes (_ : Nat) (_ : List Nat) : Bool := false

def static_compress_data (zc : List Nat → List Nat) (data : List Nat)
    (compression : List Char) (compression_strength : Nat) : Option (List Nat) :=
  if compression ≠ [] ∧ compression ≠ "none".data then
    if compression = "zlib".data then
      let new_data := zc data
      if new_data.length < data.length then
        some (49 :: new_data)   -- flag b'1'
      else
        some (48 :: data)       -- flag b'0'
    else none                    -- CompressionNotImplementedError
  else some data

/-- `compression_strength` is consumed by zlib itself and is therefore folded
into the `zc` parameter of `static_compress_data`; the declaration keeps the
strength argument of the source signature out of the embedding on purpose:
it does not influence the control flow being verified. -/
def static_decompress_data (data : List Nat) (compression : List Char) :
    Option (List Nat) :=
  if compression ≠ [] ∧ compression ≠ "none".data then
    if compression = "zlib".data then
      match data with
      | [] => none  -- data[0] raises IndexError on an empty buffer
      | flag :: rest =>
          if pyIntEqBytes flag [49] then
            none  -- zlib.decompress(data) on the flagged buffer (never taken)
          else
            some data
    else none  -- NotImplementedError
  else some data

/-! ## Integrity layer: hash append in `Encoder.apply_pattern` and the
trailing-32-byte split in `Decoder.extract_data`

The digest function enters as a parameter `H` (abstracting
`hashlib.new(alg, data).digest()`). -/

/-- The hash stage of `Encoder.apply_pattern`: `data += compute_hash(data)`. -/
def apply_hash_stage (H : List Nat → List Nat) (data : List Nat) : List Nat :=
  data ++ H data

/-- The integrity check of `Decoder.extract_data`:
`data_bytes, data_hash = data_bytes[:-32], data_bytes[-32:]` followed by
recomputation; a mismatch raises `DataIntegrityCheckFailedError`
(= `Except.error ()`).  The split width is the literal `32`, whatever the
configured algorithm's digest length is. -/
def extract_hash_check (H : List Nat → List Nat) (data : List Nat) :
    Except Unit (List Nat) :=
  let body := data.take (data.length - 32)
  let tail := data.drop (data.length - 32)
  if H body = tail then Except.ok body else Except.error ()

/-! ## Reed-Solomon chunking: `rs_encode` / `rs_decode` (`src/utils.py`)

The inner `RSCodec(nsym, nsize=255)` encode/decode of the external
`reedsolo` library enters as parameters `e`/`dd` (with its documented
behaviour assumed as hypotheses where needed: `e k m` appends `k` parity
symbols, `dd k` inverts it, `e 0 m = m`).  Correction factors are exact
fractions; the source's `round(·, 10)` exists to make float arithmetic
agree with these exact values. -/

/-- Exact fraction `num / den` standing for the float correction factor. -/
structure Frac where
  num : Nat
  den : Nat
deriving DecidableEq

/-- `ceil(f * n * 2)` for `f = num/den` with `den > 0`:
`⌈a/b⌉ = (a + b - 1) / b` in integer arithmetic. -/
def ceilTwiceMul (f : Frac) (n : Nat) : Nat :=
  (2 * f.num * n + f.den - 1) / f.den

/-- `floor(x / (1 + 2·f))` for `f = num/den` with `den > 0`:
`x / (1 + 2·num/den) = x·den / (den + 2·num)` exactly. -/
def floorDivOnePlusTwice (f : Frac) (x : Nat) : Nat :=
  x * f.den / (f.den + 2 * f.num)

/-- The `while remaining_data_symbols > 0` loop of `rs_encode`: the data
suffix still to encode stands for `data[data_size - remaining:]`.  The
`dSym = 0` guard is unreachable for correction factors in `(0, 1]` (there
the Python loop would not terminate at all). -/
def rs_encode_loop (e : Nat → List Nat → List Nat) (f : Frac) :
    List Nat → Nat → List Nat
  | data, rRem =>
    if _hne : 0 < data.length then
      let dSym := min data.length (floorDivOnePlusTwice f 255)
      if _hd : 0 < dSym then
        let r := min rRem (ceilTwiceMul f dSym)
        e r (data.take dSym) ++ rs_encode_loop e f (data.drop dSym) (rRem - r)
      else []
    else []
  termination_by data _ => data.length
  decreasing_by
    simp only [List.length_drop]
    omega

def rs_encode (e : Nat → List Nat → List Nat) (f : Frac) (data : List Nat) :
    List Nat :=
  let total_redundant_symbols := ceilTwiceMul f data.length
  let total_symbols := data.length + total_redundant_symbols
  if (total_symbols + 254) / 255 = 0 then data
  else rs_encode_loop e f data total_redundant_symbols

/-- The `while remaining_data_symbols > 0` loop of `rs_decode`: `suffix`
stands for `encoded_data[chunk_start:]` with
`chunk_start = size - remaining_data - remaining_redundant`. -/
def rs_decode_loop (dd : Nat → List Nat → List Nat) (f : Frac) :
    List Nat → Nat → Nat → List Nat
  | suffix, dRem, rRem =>
    if _hne : 0 < dRem then
      let dSym := min dRem (floorDivOnePlusTwice f 255)
      if _hd : 0 < dSym then
        let r := min rRem (ceilTwiceMul f dSym)
        let chunk := suffix.take (dSym + r)
        (if r = 0 then chunk else (dd r chunk).take dSym)
          ++ rs_decode_loop dd f (suffix.drop (dSym + r)) (dRem - dSym) (rRem - r)
      else []
    else []
  termination_by _ dRem _ => dRem
  decreasing_by omega

def rs_decode (dd : Nat → List Nat → List Nat) (f : Frac)
    (encoded_data : List Nat) : List Nat :=
  let size := encoded_data.length
  let remaining_data_symbols := floorDivOnePlusTwice f size
  rs_decode_loop dd f encoded_data remaining_data_symbols
    (size - remaining_data_symbols)

/-! ## Redundancy pipeline: `Pattern.static_apply_redundancy` /
`Pattern.static_reconstruct_redundancy`

Exceptions (`NotImplementedError` for hamming, `ValueError` for unknown
modes, and the `range(0, len, 0)` `ValueError` in block mode when
`len(data) // k = 0`) are `none`.  Python's `set(group)` iteration order is
implementation-defined; it is modelled as first-occurrence order
(`List.dedup` reversed appropriately) — every branch the theorems exercise
is order-independent. -/

/-- `calculate_byte_distance` of `src/utils.py`: `sum(abs(candidate - n))`. -/
def calculate_byte_distance (candidate_byte : Nat) (neighbors : List Nat) : Nat :=
  (neighbors.map (fun n => max candidate_byte n - min candidate_byte n)).sum

/-- First-occurrence deduplication, modelling iteration over `set(group)`. -/
def pySet (l : List Nat) : List Nat := l.dedup

/-- `Pattern.get_redundancy_neighbors`. -/
def get_redundancy_neighbors (index : Nat) (reconstructed_data : List Nat)
    (input_data : List Nat) (repetitive_redundancy : Nat) : List Nat :=
  (if 0 < index then [reconstructed_data.getD (index - 1) 0] else [])
  ++ (if index < input_data.length / repetitive_redundancy - 1 then
        let grp := (input_data.drop ((index + 1) * repetitive_redundancy)).take
          repetitive_redundancy
        let keys := pySet grp
        let maxCount := (keys.map (fun b => grp.count b)).foldl max 0
        let majors := keys.filter (fun b => grp.count b = maxCount)
        if majors.length = 1 then [majors.getD 0 0] else []
      else [])

/-- Python `min(candidates, key=distance)`: the first candidate attaining the
minimal distance. -/
def argmin_distance (candidates : List Nat) (neighbors : List Nat) : Nat :=
  match candidates with
  | [] => 0
  | c :: cs => cs.foldl (fun best b =>
      if calculate_byte_distance b neighbors < calculate_byte_distance best neighbors
      then b else best) c

/-- One group's majority vote (the body of the reconstruction loop):
single distinct byte, else unique maximal count, else the neighbor
tie-break. -/
def majority_vote_byte (full : List Nat) (k : Nat) (recon : List Nat)
    (group : List Nat) : Nat :=
  let keys := pySet group
  if keys.length = 1 then keys.getD 0 0
  else
    let maxCount := (keys.map (fun b => group.count b)).foldl max 0
    let candidates := keys.filter (fun b => group.count b = maxCount)
    if candidates.length = 1 then candidates.getD 0 0
    else
      let neighbors := get_redundancy_neighbors recon.length recon full k
      argmin_distance candidates neighbors

/-- The `for i in range(0, len(data), repetitive_redundancy)` reconstruction
loop.  The `k = 0` guard is the Python `ValueError` of a zero `range` step,
unreachable here because the loop only runs under `repetitive_redundancy > 1`. -/
def reconstructLoop (full : List Nat) (k : Nat) : Nat → List Nat → List Nat
  | i, recon =>
    if _h : i < full.length ∧ 0 < k then
      reconstructLoop full k (i + k)
        (recon ++ [majority_vote_byte full k recon ((full.drop i).take k)])
    else recon
  termination_by i _ => full.length - i
  decreasing_by omega

/-- `[data[i:i+chunk_size] for i in range(0, len(data), chunk_size)]`. -/
def chunksOf (cs : Nat) : List Nat → List (List Nat)
  | data =>
    if h : 0 < cs ∧ data ≠ [] then
      data.take cs :: chunksOf cs (data.drop cs)
    else []
  termination_by data => data.length
  decreasing_by
    simp only [List.length_drop]
    change data.length - cs < data.length
    have h2 : 0 < data.length := List.length_pos.mpr h.2
    omega

/-- Python `zip(*chunks)` (truncating at the shortest list), as a list of
aligned columns. -/
def zipTranspose (ls : List (List Nat)) : List (List Nat) :=
  if h : ls ≠ [] ∧ ls.all (fun l => ¬ l.isEmpty) then
    (ls.map (fun l => l.headD 0)) :: zipTranspose (ls.map (fun l => l.tail))
  else []
  termination_by (ls.headD []).length
  decreasing_by
    obtain ⟨hne, hall⟩ := h
    cases ls with
    | nil => exact absurd rfl hne
    | cons a as =>
        simp only [List.all_cons, Bool.and_eq_true, decide_eq_true_eq] at hall
        cases a with
        | nil => simp at hall
        | cons x xs => simp

/-- `Pattern.static_apply_redundancy` (the external RS codec enters as `e`). -/
def static_apply_redundancy (e : Nat → List Nat → List Nat) (data : List Nat)
    (repetitive_redundancy : Nat) (repetitive_redundancy_mode : List Char)
    (advanced_redundancy : List Char) (f : Frac) : Option (List Nat) :=
  let advStep : Option (List Nat) :=
    if pyLower advanced_redundancy = "reed_solomon".data
        ∨ pyLower advanced_redundancy = "rs".data then
      some (rs_encode e f data)
    else if pyLower advanced_redundancy = "hamming".data
        ∨ pyLower advanced_redundancy = "ham".data then
      none
    else if pyLower advanced_redundancy = "none".data
        ∨ pyLower advanced_redundancy = "no".data then
      some data
    else none
  match advStep with
  | none => none
  | some d1 =>
      if 1 < repetitive_redundancy then
        if pyLower repetitive_redundancy_mode = "byte_per_byte".data then
          some (d1.flatMap (fun b => List.replicate repetitive_redundancy b))
        else if pyLower repetitive_redundancy_mode = "block".data then
          some ((List.replicate repetitive_redundancy d1).flatten)
        else none
      else some d1

/-- `Pattern.static_reconstruct_redundancy` (the external RS codec enters as
`dd`). -/
def static_reconstruct_redundancy (dd : Nat → List Nat → List Nat)
    (data : List Nat) (repetitive_redundancy : Nat)
    (repetitive_redundancy_mode : List Char) (advanced_redundancy : List Char)
    (f : Frac) : Option (List Nat) :=
  let step1 : Option (List Nat) :=
    if 1 < repetitive_redundancy then
      let aligned : Option (List Nat) :=
        if pyLower repetitive_redundancy_mode = "byte_per_byte".data then
          some data
        else if pyLower repetitive_redundancy_mode = "block".data then
          (if data.length / repetitive_redundancy = 0 then none
           else some ((zipTranspose
              (chunksOf (data.length / repetitive_redundancy) data)).flatten))
        else none
      match aligned with
      | none => none
      | some d => some (reconstructLoop d repetitive_redundancy 0 [])
    else some data
  match step1 with
  | none => none
  | some d1 =>
      if pyLower advanced_redundancy = "reed_solomon".data
          ∨ pyLower advanced_redundancy = "rs".data then
        some (rs_decode dd f d1)
      else if pyLower advanced_redundancy = "hamming".data
          ∨ pyLower advanced_redundancy = "ham".data then
        none
      else if pyLower advanced_redundancy = "none".data
          ∨ pyLower advanced_redundancy = "no".data then
        some d1
      else none

/-! ## Pattern resolver: `Pattern.generate_pattern` and
`Pattern.calculate_max_data_size`

A `PatternRec` carries the recognised constructor options of `Pattern`.
`hash_check` is `Option String`: `none` collapses Python's falsy values
(`False` / `None` / `""`); the `hash_check = True` shortcut (meaning sha256)
is represented by `some "sha256"`.  Exceptions (`ValueError` on empty or
invalid channel sets) are `none`. -/

structure PatternRec where
  offset : Nat
  channels : List Char
  bit_frequency : Nat
  byte_spacing : Nat
  hash_check : Option (List Char)
  compression : List Char
  compression_strength : Nat
  advanced_redundancy : List Char
  advanced_redundancy_correction_factor : Frac
  repetitive_redundancy : Nat
  repetitive_redundancy_mode : List Char
  header_enabled : Bool
  header_write_data_size : Bool
  header_write_pattern : Bool
  header_channels : List Char
  header_position : List Char
  header_bit_frequency : Nat
  header_byte_spacing : Nat
  header_repetitive_redundancy : Nat
  header_advanced_redundancy : List Char
  header_advanced_redundancy_correction_factor : Frac
deriving DecidableEq

structure GeneratedPattern where
  position : Nat
  channels : List Char
  bit_frequency : Nat
  byte_spacing : Nat
  hash_check : Option (List Char)
  compression_enabled : Bool
  compression : List Char
  compression_strength : Nat
  advanced_redundancy : List Char
  advanced_redundancy_correction_factor : Frac
  repetitive_redundancy : Nat
  repetitive_redundancy_mode : List Char
  header_enabled : Bool
  header_write_data_size : Bool
  header_write_pattern : Bool
  header_channels : List Char
  header_position : List Char
  header_bit_frequency : Nat
  header_byte_spacing : Nat
  header_repetitive_redundancy : Nat
  header_advanced_redundancy : List Char
  header_advanced_redundancy_correction_factor : Frac
deriving DecidableEq

/-- Channel normalisation of `generate_pattern`: lower-case the pattern's
channel string; `"all"`, `""` (and the dead `None` test) and `"auto"` mean
every image channel; anything else is upper-cased. -/
def resolveChannels (P : PatternRec) (M : List Char) : List Char :=
  let cl := pyLower P.channels
  if cl = "all".data ∨ cl = [] then M
  else if cl = "auto".data then M
  else pyUpper cl

/-- Header-channel resolution of `generate_pattern`: `"auto"` picks the
single most-hidden channel (preference `A`, then `B`, then the first letter
of the layout) when the header is discoverable (`header_enabled` and
`header_write_data_size` and (`header_write_pattern` or the raw
`header_position` equals `"image_start"`)), and otherwise the full image
layout; non-`"auto"` values behave like the data channels. -/
def resolveHeaderChannels (P : PatternRec) (M : List Char) : List Char :=
  let hcl := pyLower P.header_channels
  if hcl = "auto".data then
    if P.header_enabled ∧ P.header_write_data_size
        ∧ (P.header_write_pattern ∨ P.header_position = "image_start".data) then
      if 'A' ∈ M then "A".data
      else if 'B' ∈ M then "B".data
      else [M.headD ' ']
    else M
  else if hcl = "all".data ∨ hcl = [] then M
  else pyUpper hcl

/-- Header-position resolution of `generate_pattern`. -/
def resolveHeaderPosition (P : PatternRec) : List Char :=
  let hp := pyStrip (pyLower P.header_position)
  if hp = "auto".data then
    if P.header_enabled ∧ P.header_write_data_size ∧ P.header_write_pattern
    then "image_start".data else "before_data".data
  else pyStrip (pyLower P.header_position)

/-- `Pattern.generate_pattern(image_channels)`. -/
def generate_pattern (P : PatternRec) (image_channels : List Char) :
    Option GeneratedPattern :=
  let M := pyUpper image_channels
  if M = [] then none
  else if ¬ ((resolveChannels P M).all (fun c => c ∈ M)) then none
  else if ¬ ((resolveHeaderChannels P M).all (fun c => c ∈ M)) then
    none
  else some
    { position := P.offset
      channels := resolveChannels P M
      bit_frequency := P.bit_frequency
      byte_spacing := P.byte_spacing
      hash_check := P.hash_check
      compression_enabled := P.compression ≠ [] ∧ P.compression ≠ "none".data
      compression := P.compression
      compression_strength := P.compression_strength
      advanced_redundancy := P.advanced_redundancy
      advanced_redundancy_correction_factor :=
        P.advanced_redundancy_correction_factor
      repetitive_redundancy := P.repetitive_redundancy
      repetitive_redundancy_mode := P.repetitive_redundancy_mode
      header_enabled := P.header_enabled
      header_write_data_size := P.header_write_data_size
      header_write_pattern := P.header_write_pattern
      header_channels := resolveHeaderChannels P M
      header_position := resolveHeaderPosition P
      header_bit_frequency := P.header_bit_frequency
      header_byte_spacing := P.header_byte_spacing
      header_repetitive_redundancy := P.header_repetitive_redundancy
      header_advanced_redundancy := P.header_advanced_redundancy
      header_advanced_redundancy_correction_factor :=
        P.header_advanced_redundancy_correction_factor }

/-- `Pattern.calculate_max_data_size(image_size, image_mode)`.  The result is
an `Int`: the Reed-Solomon overhead subtraction can push it below zero, and
the later `//` is Python floor division.  The channel filter compares against
the *original* `image_mode` parameter, exactly as the source does. -/
def calculate_max_data_size (P : PatternRec) (image_size : Nat × Nat)
    (image_mode : List Char) : Option Int :=
  match generate_pattern P image_mode with
  | none => none
  | some g =>
    let pixels := image_size.1 * image_size.2
    let available_channels := g.channels.filter (fun c => c ∈ image_mode)
    let bits_per_pixel := available_channels.length * P.bit_frequency
    let bits_per_byte := 8 * P.byte_spacing
    let raw_data_bytes := pixels * bits_per_pixel / bits_per_byte
    let rs_redundant_symbols :=
      if pyLower P.advanced_redundancy = "reed_solomon".data then
        ceilTwiceMul P.advanced_redundancy_correction_factor raw_data_bytes
      else 0
    let after_rs : Int := (raw_data_bytes : Int) - (rs_redundant_symbols : Int)
    some (if 1 < P.repetitive_redundancy then
        if pyLower P.repetitive_redundancy_mode = "byte_per_byte".data
            ∨ pyLower P.repetitive_redundancy_mode = "block".data
        then after_rs / (P.repetitive_redundancy : Int)
        else after_rs
      else after_rs)

/-- The capacity formula exactly as claim C5 words it (spec §4.5):
`floor(p · |active| · bit_frequency / (8 · byte_spacing))`, minus
`ceil(2·f·quotient)` under Reed-Solomon, then integer-divided by
`repetitive_redundancy` when it exceeds one. -/
def claimed_max_data_size (p activeCount bf bs : Nat) (adv : List Char)
    (f : Frac) (rep : Nat) : Int :=
  let usable : Nat := p * activeCount * bf / (8 * bs)
  let afterRS : Int := if pyLower adv = "reed_solomon".data
    then (usable : Int) - (ceilTwiceMul f usable : Int) else (usable : Int)
  if 1 < rep then afterRS / (rep : Int) else afterRS

/-! ## Hash stage and capacity validation of `Encoder.apply_pattern` -/

/-- `Pattern.compute_hash`: raises when hashing is disabled (falsy
`hash_check`) or explicitly `"none"`; otherwise delegates to hashlib,
abstracted by `H` (the `algorithms_available` membership test is part of
that abstraction). -/
def compute_hash (H : List Nat → List Nat) (hash_check : Option (List Char))
    (data : List Nat) : Option (List Nat) :=
  match hash_check with
  | none => none
  | some alg => if pyLower alg = "none".data then none else some (H data)

/-- The payload-transformation prefix of `Encoder.apply_pattern`: hash
append, optional compression, redundancy, then the
`_validate_data_after_pattern_applied` capacity check (`ValueError` when the
transformed payload exceeds `calculate_max_data_size`).  Header generation
and the final `encode_data` calls are modelled separately by the bit codec. -/
def apply_pattern_checked_payload (H : List Nat → List Nat)
    (zc : List Nat → List Nat) (e : Nat → List Nat → List Nat)
    (P : PatternRec) (imageSize : Nat × Nat) (mode : List Char)
    (data : List Nat) : Option (List Nat) :=
  match generate_pattern P mode with
  | none => none
  | some g =>
    let step1 : Option (List Nat) :=
      match g.hash_check with
      | none => some data
      | some alg =>
          match compute_hash H (some alg) data with
          | none => none
          | some digest => some (data ++ digest)
    match step1 with
    | none => none
    | some d1 =>
      let step2 : Option (List Nat) :=
        if g.compression_enabled then
          static_compress_data zc d1 g.compression g.compression_strength
        else some d1
      match step2 with
      | none => none
      | some d2 =>
        match static_apply_redundancy e d2 P.repetitive_redundancy
            P.repetitive_redundancy_mode P.advanced_redundancy
            P.advanced_redundancy_correction_factor with
        | none => none
        | some d3 =>
          match calculate_max_data_size P imageSize mode with
          | none => none
          | some maxSize =>
              if (d3.length : Int) ≤ maxSize then some d3 else none

/-- The `k` copies of byte `j` in the repetition-expanded buffer: consecutive
positions `j·k..j·k+k-1` in `byte_per_byte` mode, strided positions
`t·|D| + j` (one per block) in `block` mode. -/
def repGroup (mode : List Char) (c : List Nat) (k n j : Nat) : List Nat :=
  if pyLower mode = "byte_per_byte".data then (c.drop (j * k)).take k
  else (List.range k).map (fun t => c.getD (t * n + j) 0)

theorem natToBits_length (w n : Nat) : (natToBits w n).length = w := by
  induction w generalizing n with
  | zero => rfl
  | succ w ih => simp [natToBits, ih]

theorem bitsFromList_foldl (l : List Bool) :
    ∀ n : Nat, l.foldl (fun n b => 2 * n + (if b then 1 else 0)) n
      = n * 2 ^ l.length + bitsFromList l := by
  induction l with
  | nil => intro n; simp [bitsFromList]
  | cons x xs ih =>
      intro n
      have hx : bitsFromList (x :: xs)
          = (if x then 1 else 0) * 2 ^ xs.length + bitsFromList xs := by
        rw [bitsFromList, List.foldl_cons, ih]
        simp
      simp only [List.foldl_cons, List.length_cons, ih, hx, pow_succ]
      ring

theorem bitsFromList_append (a b : List Bool) :
    bitsFromList (a ++ b) = bitsFromList a * 2 ^ b.length + bitsFromList b := by
  rw [bitsFromList, List.foldl_append]
  exact bitsFromList_foldl b (bitsFromList a)

theorem bitsFromList_single (x : Bool) :
    bitsFromList [x] = if x then 1 else 0 := by
  cases x <;> simp [bitsFromList]

theorem bitsFromList_natToBits (w n : Nat) :
    bitsFromList (natToBits w n) = n % 2 ^ w := by
  induction w generalizing n with
  | zero => simp [natToBits, bitsFromList, Nat.mod_one]
  | succ w ih =>
      rw [natToBits, bitsFromList_append, ih, bitsFromList_single]
      have h2 : (if (n % 2 == 1) then 1 else 0) = n % 2 := by
        rcases Nat.mod_two_eq_zero_or_one n with h | h <;> simp [h]
      have hm : n % 2 ^ (w + 1) = n % 2 + 2 * (n / 2 % 2 ^ w) := by
        calc n % 2 ^ (w + 1) = n % (2 * 2 ^ w) := by ring_nf
          _ = n % 2 + 2 * (n / 2 % 2 ^ w) := Nat.mod_mul
      rw [h2, hm]
      simp only [List.length_singleton, pow_one]
      ring

theorem bitsFromList_lt (l : List Bool) : bitsFromList l < 2 ^ l.length := by
  induction l using List.reverseRecOn with
  | nil => simp [bitsFromList]
  | append_singleton xs x ih =>
      rw [bitsFromList_append, bitsFromList_single]
      have h2 : (2 : Nat) ^ (xs ++ [x]).length = 2 ^ xs.length * 2 := by
        simp [pow_succ]
      rw [h2]
      simp only [List.length_singleton, pow_one]
      cases x <;> simp <;> omega

theorem natToBits_bitsFromList (l : List Bool) :
    natToBits l.length (bitsFromList l) = l := by
  induction l using List.reverseRecOn with
  | nil => rfl
  | append_singleton xs x ih =>
      have hx : bitsFromList [x] = if x then 1 else 0 := by
        cases x <;> simp [bitsFromList]
      have hn : bitsFromList (xs ++ [x]) = bitsFromList xs * 2 + (if x then 1 else 0) := by
        rw [bitsFromList_append]; simp [hx]
      have hdiv : bitsFromList (xs ++ [x]) / 2 = bitsFromList xs := by
        rw [hn]; cases x <;> simp <;> omega
      have hmod : (bitsFromList (xs ++ [x]) % 2 == 1) = x := by
        rw [hn]; cases x <;> simp [Nat.mul_add_mod] <;> omega
      simp only [List.length_append, List.length_singleton, natToBits, hdiv, hmod, ih]

/-! ## Structural lemmas about the encoder loops -/

theorem encodeChannels_nil_data (mode channels : List Char) (bf bs : Nat) :
    ∀ (vs : List Nat) (ci i : Nat) (c : Char → Nat),
      ∃ cf, encodeChannels mode channels bf bs [] vs ci i c = ⟨vs, i, cf⟩ := by
  intro vs
  induction vs with
  | nil => intro ci i c; exact ⟨c, rfl⟩
  | cons v vs ih =>
      intro ci i c
      by_cases h : mode.getD (ci % mode.length) ' ' ∈ channels
      · obtain ⟨cf, hrec⟩ := ih (ci + 1) i (bump c (mode.getD (ci % mode.length) ' '))
        refine ⟨cf, ?_⟩
        simp only [encodeChannels, List.length_nil, Nat.not_lt_zero, if_false]
        rw [if_pos h, hrec]
      · obtain ⟨cf, hrec⟩ := ih (ci + 1) i c
        refine ⟨cf, ?_⟩
        simp only [encodeChannels, List.length_nil, Nat.not_lt_zero, if_false]
        rw [if_neg h, hrec]

theorem encodePixels_nil_data (mode channels : List Char) (bf bs : Nat)
    (p : List Nat) (ps : List (List Nat)) (idx : Nat) (c : Char → Nat) :
    encodePixels mode channels bf bs [] (p :: ps) idx 0 c = ⟨[p], idx, 0⟩ := by
  obtain ⟨cf, h1⟩ := encodeChannels_nil_data mode channels bf bs p 0 0 c
  simp [encodePixels, h1]

theorem encode_data_nil_payload (mode : List Char)
    (pixels : List (List Nat)) (channels : List Char)
    (bitFrequency byteSpacing offset : Nat) (hoff : offset < pixels.length) :
    encode_data mode pixels [] channels bitFrequency byteSpacing offset
      = (pixels, 0) := by
  have hdrop : pixels.drop offset
      = pixels.get ⟨offset, hoff⟩ :: pixels.drop (offset + 1) := by
    rw [List.drop_eq_getElem_cons hoff]
    simp [List.get_eq_getElem]
  unfold encode_data
  simp only [show bytesToBits [] = [] from rfl, hdrop,
    encodePixels_nil_data mode channels bitFrequency byteSpacing]
  refine Prod.ext ?_ (by simp)
  simp only
  rw [show pixels.take offset ++ [pixels.get ⟨offset, hoff⟩] ++ pixels.drop (offset + 1)
      = ((pixels.take offset).concat (pixels.get ⟨offset, hoff⟩)) ++ pixels.drop (offset + 1) by
    simp [List.concat_eq_append]]
  rw [show (pixels.take offset).concat (pixels.get ⟨offset, hoff⟩)
      = pixels.take (offset + 1) from List.take_concat_get pixels offset hoff]
  exact List.take_append_drop (offset + 1) pixels

/-- C10: encoding an empty payload touches one pixel (copying it verbatim)
and returns the raster unchanged with a touched-pixel span of `0`. -/
theorem claim_C10_empty_payload_identity (mode : List Char)
    (pixels : List (List Nat)) (channels : List Char)
    (bitFrequency byteSpacing offset : Nat) (hoff : offset < pixels.length) :
    encode_data mode pixels [] channels bitFrequency byteSpacing offset
      = (pixels, 0) :=
  encode_data_nil_payload mode pixels channels bitFrequency byteSpacing offset hoff

theorem claim_C10_witness :
    encode_data ['L'] [[5], [6], [7]] [] ['L'] 2 3 1 = ([[5], [6], [7]], 0) :=
  claim_C10_empty_payload_identity ['L'] [[5], [6], [7]] ['L'] 2 3 1 (by decide)

/-! ## Encoder/decoder synchronisation (towards the round-trip law) -/

theorem bytesToBits_length (D : List Nat) : (bytesToBits D).length = 8 * D.length := by
  induction D with
  | nil => rfl
  | cons d rest ih =>
      simp only [bytesToBits, List.flatMap_cons, List.length_append, List.length_cons]
      rw [show (byteToBits d).length = 8 from natToBits_length 8 d]
      simp only [bytesToBits] at ih
      omega

theorem step_le_of_dvd {bf i L : Nat} (h1 : bf ∣ i) (h2 : bf ∣ L) (h3 : i < L) :
    i + bf ≤ L := by
  obtain ⟨a, ha⟩ := h1
  obtain ⟨b, hb⟩ := h2
  subst ha; subst hb
  have hab : a < b := Nat.lt_of_mul_lt_mul_left h3
  calc bf * a + bf = bf * (a + 1) := by ring
    _ ≤ bf * b := Nat.mul_le_mul_left bf hab

/-- Once every payload bit is consumed, the encoder's channel loop copies the
remaining values verbatim. -/
theorem encodeChannels_past (mode channels : List Char) (bf bs : Nat)
    (db : List Bool) :
    ∀ (vs : List Nat) (ci i : Nat) (c : Char → Nat), db.length ≤ i →
      ∃ cf, encodeChannels mode channels bf bs db vs ci i c = ⟨vs, i, cf⟩ := by
  intro vs
  induction vs with
  | nil => intro ci i c _; exact ⟨c, rfl⟩
  | cons v vs ih =>
      intro ci i c hle
      have hnlt : ¬ i < db.length := by omega
      by_cases h : mode.getD (ci % mode.length) ' ' ∈ channels
      · obtain ⟨cf, hrec⟩ := ih (ci + 1) i (bump c (mode.getD (ci % mode.length) ' ')) hle
        refine ⟨cf, ?_⟩
        simp only [encodeChannels]
        rw [if_pos h, if_neg hnlt, hrec]
      · obtain ⟨cf, hrec⟩ := ih (ci + 1) i c hle
        refine ⟨cf, ?_⟩
        simp only [encodeChannels]
        rw [if_neg h, hrec]

/-- The freshly written channel value: it stays a byte, and its low
`bit_frequency` bits (as read back by the decoder) are exactly the payload
slice that was written. -/
theorem encoded_value_spec (v : Nat) (bf : Nat) (hbf8 : bf ≤ 8)
    (slice : List Bool) (hs : slice.length = bf) :
    ((natToBits 8 v).take (8 - bf) ++ slice).length = 8 ∧
    bitsFromList ((natToBits 8 v).take (8 - bf) ++ slice) < 256 ∧
    (natToBits 8 (bitsFromList ((natToBits 8 v).take (8 - bf) ++ slice))).drop (8 - bf)
      = slice := by
  have htk : ((natToBits 8 v).take (8 - bf)).length = 8 - bf := by
    rw [List.length_take, natToBits_length]
    omega
  have hlen : ((natToBits 8 v).take (8 - bf) ++ slice).length = 8 := by
    rw [List.length_append, htk, hs]; omega
  refine ⟨hlen, ?_, ?_⟩
  · have := bitsFromList_lt ((natToBits 8 v).take (8 - bf) ++ slice)
    rw [hlen] at this
    exact this
  · have hrt : natToBits 8 (bitsFromList ((natToBits 8 v).take (8 - bf) ++ slice))
        = (natToBits 8 v).take (8 - bf) ++ slice := by
      have := natToBits_bitsFromList ((natToBits 8 v).take (8 - bf) ++ slice)
      rw [hlen] at this
      exact this
    rw [hrt]
    exact List.drop_left' htk

theorem codec_channels_sync (mode channels : List Char) (bf bs : Nat)
    (db : List Bool) (hbf : 1 ≤ bf) (hbf8 : bf ≤ 8) (hdvd : bf ∣ db.length) :
    ∀ (vs : List Nat) (ci i : Nat) (c : Char → Nat),
      (∀ v ∈ vs, v < 256) → bf ∣ i → i < db.length →
      SyncOk mode channels bf bs db ci i c
        (encodeChannels mode channels bf bs db vs ci i c) := by
  intro vs
  induction vs with
  | nil =>
      intro ci i c _ hdi hilt
      exact ⟨hdi, Nat.le_of_lt hilt, by simp [encodeChannels], Or.inl ⟨hilt, rfl⟩⟩
  | cons v vs ih =>
      intro ci i c hval hdi hilt
      have hv : v < 256 := hval v (by simp)
      have hvs : ∀ x ∈ vs, x < 256 := fun x hx => hval x (by simp [hx])
      have hti : (db.take i).length = i := by
        rw [List.length_take]; omega
      by_cases hch : mode.getD (ci % mode.length) ' ' ∈ channels
      · by_cases hslot : c (mode.getD (ci % mode.length) ' ') % bs = 0
        · -- a write slot: the encoder consumes `bf` bits
          have hstep : i + bf ≤ db.length := step_le_of_dvd hdi hdvd hilt
          have hslice : ((db.drop i).take bf).length = bf := by
            rw [List.length_take, List.length_drop]; omega
          obtain ⟨hnb8, hnv, hread⟩ :=
            encoded_value_spec v bf hbf8 ((db.drop i).take bf) hslice
          have henc : encodeChannels mode channels bf bs db (v :: vs) ci i c
              = ⟨bitsFromList ((natToBits 8 v).take (8 - bf) ++ (db.drop i).take bf)
                  :: (encodeChannels mode channels bf bs db vs (ci + 1) (i + bf)
                      (bump c (mode.getD (ci % mode.length) ' '))).out,
                 (encodeChannels mode channels bf bs db vs (ci + 1) (i + bf)
                      (bump c (mode.getD (ci % mode.length) ' '))).bitIdx,
                 (encodeChannels mode channels bf bs db vs (ci + 1) (i + bf)
                      (bump c (mode.getD (ci % mode.length) ' '))).counters⟩ := by
            simp only [encodeChannels]
            rw [if_pos hch, if_pos hilt, if_pos hslot]
          have hacc : db.take i
                ++ (natToBits 8 (bitsFromList ((natToBits 8 v).take (8 - bf)
                      ++ (db.drop i).take bf))).drop (8 - bf)
              = db.take (i + bf) := by
            rw [hread, ← List.take_add]
          by_cases hend : i + bf = db.length
          · -- the write completes the payload: the decoder breaks right here
            obtain ⟨cf, hpast⟩ := encodeChannels_past mode channels bf bs db vs
              (ci + 1) (i + bf) (bump c (mode.getD (ci % mode.length) ' '))
              (by omega)
            rw [henc, hpast]
            simp only [SyncOk]
            have hdec : decodeChannels mode channels bf bs db.length
                (bitsFromList ((natToBits 8 v).take (8 - bf) ++ (db.drop i).take bf)
                  :: vs) ci (db.take i) c
                = ⟨db.take (i + bf), bump c (mode.getD (ci % mode.length) ' '), true⟩ := by
              simp only [decodeChannels]
              rw [if_pos hch, if_pos hslot, hacc]
              have : db.length ≤ (db.take (i + bf)).length := by
                rw [List.length_take]; omega
              rw [if_pos this]
            refine ⟨Dvd.dvd.add hdi (dvd_refl bf), by omega, ?_, Or.inr ⟨hend, ?_, ?_⟩⟩
            · intro x hx
              rcases List.mem_cons.mp hx with h | h
              · simpa [h] using hnv
              · exact hvs x h
            · rw [hdec, hend, List.take_length]
            · rw [hdec]
          · -- mid-payload write: both sides advance by `bf` bits
            have hlt2 : i + bf < db.length := by omega
            have hIH := ih (ci + 1) (i + bf)
              (bump c (mode.getD (ci % mode.length) ' ')) hvs
              (Dvd.dvd.add hdi (dvd_refl bf)) hlt2
            obtain ⟨ih1, ih2, ih3, ih4⟩ := hIH
            rw [henc]
            have hdec : ∀ r : DecChan,
                decodeChannels mode channels bf bs db.length
                  (encodeChannels mode channels bf bs db vs (ci + 1) (i + bf)
                    (bump c (mode.getD (ci % mode.length) ' '))).out
                  (ci + 1) (db.take (i + bf))
                  (bump c (mode.getD (ci % mode.length) ' ')) = r →
                decodeChannels mode channels bf bs db.length
                  (bitsFromList ((natToBits 8 v).take (8 - bf) ++ (db.drop i).take bf)
                    :: (encodeChannels mode channels bf bs db vs (ci + 1) (i + bf)
                        (bump c (mode.getD (ci % mode.length) ' '))).out)
                  ci (db.take i) c = r := by
              intro r hr
              simp only [decodeChannels]
              rw [if_pos hch, if_pos hslot, hacc]
              have : ¬ db.length ≤ (db.take (i + bf)).length := by
                rw [List.length_take]; omega
              rw [if_neg this, hr]
            refine ⟨ih1, ih2, ?_, ?_⟩
            · intro x hx
              rcases List.mem_cons.mp hx with h | h
              · simpa [h] using hnv
              · exact ih3 x h
            · rcases ih4 with ⟨hlt', hrec⟩ | ⟨heq', hacc', hbrk'⟩
              · exact Or.inl ⟨hlt', hdec _ hrec⟩
              · refine Or.inr ⟨heq', ?_, ?_⟩
                · rw [hdec _ rfl]; exact hacc'
                · rw [hdec _ rfl]; exact hbrk'
        · -- eligible channel, but not a write slot: value copied, counter bumped
          have henc : encodeChannels mode channels bf bs db (v :: vs) ci i c
              = ⟨v :: (encodeChannels mode channels bf bs db vs (ci + 1) i
                      (bump c (mode.getD (ci % mode.length) ' '))).out,
                 (encodeChannels mode channels bf bs db vs (ci + 1) i
                      (bump c (mode.getD (ci % mode.length) ' '))).bitIdx,
                 (encodeChannels mode channels bf bs db vs (ci + 1) i
                      (bump c (mode.getD (ci % mode.length) ' '))).counters⟩ := by
            simp only [encodeChannels]
            rw [if_pos hch, if_pos hilt, if_neg hslot]
          have hIH := ih (ci + 1) i (bump c (mode.getD (ci % mode.length) ' '))
            hvs hdi hilt
          obtain ⟨ih1, ih2, ih3, ih4⟩ := hIH
          rw [henc]
          have hdec : ∀ r : DecChan,
              decodeChannels mode channels bf bs db.length
                (encodeChannels mode channels bf bs db vs (ci + 1) i
                  (bump c (mode.getD (ci % mode.length) ' '))).out
                (ci + 1) (db.take i)
                (bump c (mode.getD (ci % mode.length) ' ')) = r →
              decodeChannels mode channels bf bs db.length
                (v :: (encodeChannels mode channels bf bs db vs (ci + 1) i
                    (bump c (mode.getD (ci % mode.length) ' '))).out)
                ci (db.take i) c = r := by
            intro r hr
            simp only [decodeChannels]
            rw [if_pos hch, if_neg hslot]
            have : ¬ db.length ≤ (db.take i).length := by
              rw [List.length_take]; omega
            rw [if_neg this, hr]
          refine ⟨ih1, ih2, ?_, ?_⟩
          · intro x hx
            rcases List.mem_cons.mp hx with h | h
            · omega
            · exact ih3 x h
          · rcases ih4 with ⟨hlt', hrec⟩ | ⟨heq', hacc', hbrk'⟩
            · exact Or.inl ⟨hlt', hdec _ hrec⟩
            · refine Or.inr ⟨heq', ?_, ?_⟩
              · rw [hdec _ rfl]; exact hacc'
              · rw [hdec _ rfl]; exact hbrk'
      · -- channel not in the active set: both sides copy through
        have henc : encodeChannels mode channels bf bs db (v :: vs) ci i c
            = ⟨v :: (encodeChannels mode channels bf bs db vs (ci + 1) i c).out,
               (encodeChannels mode channels bf bs db vs (ci + 1) i c).bitIdx,
               (encodeChannels mode channels bf bs db vs (ci + 1) i c).counters⟩ := by
          simp only [encodeChannels]
          rw [if_neg hch]
        have hIH := ih (ci + 1) i c hvs hdi hilt
        obtain ⟨ih1, ih2, ih3, ih4⟩ := hIH
        rw [henc]
        have hdec : ∀ r : DecChan,
            decodeChannels mode channels bf bs db.length
              (encodeChannels mode channels bf bs db vs (ci + 1) i c).out
              (ci + 1) (db.take i) c = r →
            decodeChannels mode channels bf bs db.length
              (v :: (encodeChannels mode channels bf bs db vs (ci + 1) i c).out)
              ci (db.take i) c = r := by
          intro r hr
          simp only [decodeChannels]
          rw [if_neg hch]
          have : ¬ db.length ≤ (db.take i).length := by
            rw [List.length_take]; omega
          rw [if_neg this, hr]
        refine ⟨ih1, ih2, ?_, ?_⟩
        · intro x hx
          rcases List.mem_cons.mp hx with h | h
          · omega
          · exact ih3 x h
        · rcases ih4 with ⟨hlt', hrec⟩ | ⟨heq', hacc', hbrk'⟩
          · exact Or.inl ⟨hlt', hdec _ hrec⟩
          · refine Or.inr ⟨heq', ?_, ?_⟩
            · rw [hdec _ rfl]; exact hacc'
            · rw [hdec _ rfl]; exact hbrk'

theorem codec_pixels_sync (mode channels : List Char) (bf bs : Nat)
    (db : List Bool) (hbf : 1 ≤ bf) (hbf8 : bf ≤ 8) (hdvd : bf ∣ db.length)
    (off : Nat) :
    ∀ (ps tl : List (List Nat)) (idx i : Nat) (c : Char → Nat),
      (∀ p ∈ ps, ∀ v ∈ p, v < 256) → bf ∣ i → i < db.length →
      db.length ≤ (encodePixels mode channels bf bs db ps idx i c).bitIdx →
      (decodePixels mode channels bf bs db.length off
          ((encodePixels mode channels bf bs db ps idx i c).out ++ tl)
          idx (db.take i) c).acc = db := by
  intro ps
  induction ps with
  | nil =>
      intro tl idx i c _ _ hilt hcap
      exfalso
      simp only [encodePixels] at hcap
      omega
  | cons p ps ih =>
      intro tl idx i c hval hdi hilt hcap
      obtain ⟨s1, s2, s3, s4⟩ :=
        codec_channels_sync mode channels bf bs db hbf hbf8 hdvd p 0 i c
          (hval p (by simp)) hdi hilt
      by_cases hbrk : db.length ≤ (encodeChannels mode channels bf bs db p 0 i c).bitIdx
      · have henc : encodePixels mode channels bf bs db (p :: ps) idx i c
            = ⟨[(encodeChannels mode channels bf bs db p 0 i c).out], idx,
               (encodeChannels mode channels bf bs db p 0 i c).bitIdx⟩ := by
          simp only [encodePixels]
          rw [if_pos hbrk]
        rw [henc]
        rcases s4 with ⟨hlt, _⟩ | ⟨_, hacc, hbrk'⟩
        · omega
        · simp only [List.cons_append, List.nil_append, decodePixels]
          rw [hbrk']
          simpa using hacc
      · have hlt2 : (encodeChannels mode channels bf bs db p 0 i c).bitIdx
            < db.length := by omega
        rcases s4 with ⟨_, hrec⟩ | ⟨heq, _, _⟩
        · have henc : encodePixels mode channels bf bs db (p :: ps) idx i c
              = ⟨(encodeChannels mode channels bf bs db p 0 i c).out
                  :: (encodePixels mode channels bf bs db ps (idx + 1)
                      (encodeChannels mode channels bf bs db p 0 i c).bitIdx
                      (encodeChannels mode channels bf bs db p 0 i c).counters).out,
                 (encodePixels mode channels bf bs db ps (idx + 1)
                      (encodeChannels mode channels bf bs db p 0 i c).bitIdx
                      (encodeChannels mode channels bf bs db p 0 i c).counters).lastPixel,
                 (encodePixels mode channels bf bs db ps (idx + 1)
                      (encodeChannels mode channels bf bs db p 0 i c).bitIdx
                      (encodeChannels mode channels bf bs db p 0 i c).counters).bitIdx⟩ := by
            simp only [encodePixels]
            rw [if_neg hbrk]
          rw [henc] at hcap ⊢
          dsimp only at hcap ⊢
          simp only [List.cons_append, decodePixels]
          rw [hrec]
          dsimp only
          exact ih tl (idx + 1)
            (encodeChannels mode channels bf bs db p 0 i c).bitIdx
            (encodeChannels mode channels bf bs db p 0 i c).counters
            (fun q hq => hval q (by simp [hq])) s1 hlt2 hcap
        · omega

theorem bitsToBytes_bytesToBits :
    ∀ (D : List Nat) (extra : List Bool), (∀ b ∈ D, b < 256) →
      bitsToBytes (bytesToBits D ++ extra) D.length = D := by
  intro D
  induction D with
  | nil => intro extra _; rfl
  | cons d rest ih =>
      intro extra hD
      have hd : d < 256 := hD d (by simp)
      have hrest : ∀ b ∈ rest, b < 256 := fun b hb => hD b (by simp [hb])
      have hlen8 : (byteToBits d).length = 8 := natToBits_length 8 d
      have hsplit : bytesToBits (d :: rest) ++ extra
          = byteToBits d ++ (bytesToBits rest ++ extra) := by
        simp [bytesToBits]
      rw [hsplit]
      simp only [bitsToBytes, List.length_cons, List.range_succ_eq_map,
        List.map_cons, List.map_map]
      have hf0 : bitsFromList
          (((byteToBits d ++ (bytesToBits rest ++ extra)).drop (8 * 0)).take 8) = d := by
        simp only [Nat.mul_zero, List.drop_zero]
        rw [List.take_left' hlen8, byteToBits, bitsFromList_natToBits]
        have h256 : (2 : Nat) ^ 8 = 256 := by norm_num
        rw [h256]
        exact Nat.mod_eq_of_lt hd
      rw [hf0]
      have hshift : ∀ k : Nat,
          ((byteToBits d ++ (bytesToBits rest ++ extra)).drop (8 * (k + 1))).take 8
            = ((bytesToBits rest ++ extra).drop (8 * k)).take 8 := by
        intro k
        have he : 8 * (k + 1) = (byteToBits d).length + 8 * k := by
          rw [hlen8]; ring
        rw [he, List.drop_append]
      have hfun : ((fun k => bitsFromList
            (((byteToBits d ++ (bytesToBits rest ++ extra)).drop (8 * k)).take 8))
              ∘ (fun k => k + 1))
          = fun k => bitsFromList (((bytesToBits rest ++ extra).drop (8 * k)).take 8) := by
        funext k
        simp only [Function.comp_apply, hshift]
      rw [hfun]
      have := ih extra hrest
      simp only [bitsToBytes] at this
      rw [this]

/-- C1 (amended): the bit-codec round trip holds whenever, in addition to the
resolved pattern parameters, `bit_frequency` divides `8 * |D|` (so every
write slot carries a full `bit_frequency`-bit slice) and the raster holds
enough write slots past `offset` for the encoder to consume every payload bit
(the capacity premise, stated as the encoder's final bit index).  Without the
divisibility premise the final partial write is misaligned on read-back and
the round trip fails (see the counterexample). -/
theorem claim_C1_roundtrip_amended (mode channels : List Char)
    (pixels : List (List Nat)) (D : List Nat)
    (bitFrequency byteSpacing offset : Nat)
    (hbf : 1 ≤ bitFrequency) (hbf8 : bitFrequency ≤ 8) (hbs : 1 ≤ byteSpacing)
    (hpix : ∀ p ∈ pixels, ∀ v ∈ p, v < 256)
    (hD : ∀ b ∈ D, b < 256)
    (hdvd : bitFrequency ∣ 8 * D.length)
    (hcap : 8 * D.length ≤ (encodePixels mode channels bitFrequency byteSpacing
        (bytesToBits D) (pixels.drop offset) offset 0 (fun _ => 0)).bitIdx) :
    (decode_data mode
        (encode_data mode pixels D channels bitFrequency byteSpacing offset).1
        D.length channels bitFrequency byteSpacing offset).1 = D := by
  rcases Nat.eq_zero_or_pos D.length with hD0 | hDpos
  · have hnil : D = [] := List.length_eq_zero.mp hD0
    subst hnil
    simp [decode_data, bitsToBytes]
  · have hdb : (bytesToBits D).length = 8 * D.length := bytesToBits_length D
    have hne : pixels.drop offset ≠ [] := by
      intro hnil
      rw [hnil] at hcap
      simp only [encodePixels] at hcap
      omega
    have hofflt : offset < pixels.length := by
      by_contra hge
      exact hne (List.drop_eq_nil_of_le (by omega))
    have htakelen : (pixels.take offset).length = offset := by
      rw [List.length_take]; omega
    have hvals : ∀ p ∈ pixels.drop offset, ∀ v ∈ p, v < 256 :=
      fun p hp => hpix p (List.mem_of_mem_drop hp)
    have hsync := codec_pixels_sync mode channels bitFrequency byteSpacing
      (bytesToBits D) hbf hbf8 (by rw [hdb]; exact hdvd) offset
      (pixels.drop offset)
      (pixels.drop ((encodePixels mode channels bitFrequency byteSpacing
        (bytesToBits D) (pixels.drop offset) offset 0 (fun _ => 0)).lastPixel + 1))
      offset 0 (fun _ => 0) hvals (Dvd.intro 0 rfl) (by omega) (by omega)
    simp only [decode_data, encode_data]
    have hdropoff : (pixels.take offset
        ++ (encodePixels mode channels bitFrequency byteSpacing
            (bytesToBits D) (pixels.drop offset) offset 0 (fun _ => 0)).out
        ++ pixels.drop ((encodePixels mode channels bitFrequency byteSpacing
            (bytesToBits D) (pixels.drop offset) offset 0 (fun _ => 0)).lastPixel + 1)).drop
          offset
        = (encodePixels mode channels bitFrequency byteSpacing
            (bytesToBits D) (pixels.drop offset) offset 0 (fun _ => 0)).out
          ++ pixels.drop ((encodePixels mode channels bitFrequency byteSpacing
            (bytesToBits D) (pixels.drop offset) offset 0 (fun _ => 0)).lastPixel + 1) := by
      rw [List.append_assoc, List.drop_left' htakelen]
    rw [hdropoff]
    have htl : D.length * 8 = (bytesToBits D).length := by omega
    rw [htl]
    have hacc0 : ([] : List Bool) = (bytesToBits D).take 0 := rfl
    rw [hacc0, hsync]
    have hfin : bytesToBits D = bytesToBits D ++ [] := by simp
    rw [hfin, bitsToBytes_bytesToBits D [] hD]

theorem claim_C1_witness :
    (decode_data ['L']
        (encode_data ['L'] [[7], [7], [7], [7], [7], [7], [7], [7]]
          [173] ['L'] 1 1 0).1
        1 ['L'] 1 1 0).1 = [173] :=
  claim_C1_roundtrip_amended ['L'] ['L'] [[7], [7], [7], [7], [7], [7], [7], [7]]
    [173] 1 1 0 (by decide) (by decide) (by decide) (by decide) (by decide)
    (by decide) (by decide)

/-- C1 counterexample: with the resolved parameters `channels = "L"`,
`bit_frequency = 3`, `byte_spacing = 1`, `offset = 0` on an eight-pixel
single-channel raster of byte value `8` (ample capacity for one byte),
encoding the payload `b"\x00"` and decoding it back with the same parameters
and length `1` yields `b"\x02"`, not the original payload: the last write
slot carries only the two remaining payload bits, and the decoder reads
three bits back, misaligned. -/
theorem claim_C1_counterexample :
    ¬ ((decode_data ['L']
        (encode_data ['L'] [[8], [8], [8], [8], [8], [8], [8], [8]]
          [0] ['L'] 3 1 0).1
        1 ['L'] 3 1 0).1 = [0]) := by decide

theorem getD_drop {α : Type} (l : List α) (n m : Nat) (d : α) :
    (l.drop n).getD m d = l.getD (n + m) d := by
  simp [List.getD]

theorem getD_append_right {α : Type} (a b : List α) (m : Nat) (d : α) :
    (a ++ b).getD (a.length + m) d = b.getD m d := by
  simp [List.getD, List.getElem?_append_right (Nat.le_add_right a.length m)]

theorem getD_append_left {α : Type} (a b : List α) (m : Nat) (hm : m < a.length)
    (d : α) : (a ++ b).getD m d = a.getD m d := by
  simp [List.getD, List.getElem?_append_left hm]

theorem bitsFromList_append_div (a b : List Bool) :
    bitsFromList (a ++ b) / 2 ^ b.length = bitsFromList a := by
  rw [bitsFromList_append]
  have hpos : 0 < 2 ^ b.length := Nat.pos_pow_of_pos b.length (by omega)
  rw [show bitsFromList a * 2 ^ b.length + bitsFromList b
      = 2 ^ b.length * bitsFromList a + bitsFromList b by ring]
  rw [Nat.mul_add_div hpos]
  rw [Nat.div_eq_of_lt (by simpa using bitsFromList_lt b)]
  omega

theorem value_high_bits (v : Nat) (hv : v < 256) (bf : Nat) (hbf8 : bf ≤ 8)
    (slice : List Bool) (hs : slice.length = bf) :
    bitsFromList ((natToBits 8 v).take (8 - bf) ++ slice) / 2 ^ bf = v / 2 ^ bf := by
  have hd : ((natToBits 8 v).drop (8 - bf)).length = bf := by
    rw [List.length_drop, natToBits_length]; omega
  have hv8 : bitsFromList (natToBits 8 v) = v := by
    rw [bitsFromList_natToBits]
    have h256 : (2 : Nat) ^ 8 = 256 := by norm_num
    rw [h256]
    exact Nat.mod_eq_of_lt hv
  have h1 := bitsFromList_append_div ((natToBits 8 v).take (8 - bf)) slice
  have h2 := bitsFromList_append_div ((natToBits 8 v).take (8 - bf))
    ((natToBits 8 v).drop (8 - bf))
  rw [hs] at h1
  rw [hd] at h2
  rw [h1, ← h2, List.take_append_drop, hv8]

theorem slotChannels_marks_active (mode channels : List Char) (bs : Nat) :
    ∀ (vs : List Nat) (ci : Nat) (c : Char → Nat) (k : Nat),
      (slotChannels mode channels bs vs ci c).1.getD k false = true →
      mode.getD ((ci + k) % mode.length) ' ' ∈ channels := by
  intro vs
  induction vs with
  | nil => intro ci c k h; simp [slotChannels, List.getD] at h
  | cons v vs ih =>
      intro ci c k h
      by_cases hch : mode.getD (ci % mode.length) ' ' ∈ channels
      · simp only [slotChannels] at h
        rw [if_pos hch] at h
        cases k with
        | zero => simpa using hch
        | succ k =>
            have := ih (ci + 1) (bump c (mode.getD (ci % mode.length) ' ')) k
              (by simpa [List.getD] using h)
            rw [show ci + (k + 1) = ci + 1 + k by ring]
            exact this
      · simp only [slotChannels] at h
        rw [if_neg hch] at h
        cases k with
        | zero => simp [List.getD] at h
        | succ k =>
            have := ih (ci + 1) c k (by simpa [List.getD] using h)
            rw [show ci + (k + 1) = ci + 1 + k by ring]
            exact this

theorem encodeChannels_writes (mode channels : List Char) (bf bs : Nat)
    (db : List Bool) (hbf8 : bf ≤ 8) (hdvd : bf ∣ db.length) :
    ∀ (vs : List Nat) (ci i : Nat) (c : Char → Nat),
      (∀ v ∈ vs, v < 256) → bf ∣ i → i ≤ db.length →
      (encodeChannels mode channels bf bs db vs ci i c).out.length = vs.length ∧
      (encodeChannels mode channels bf bs db vs ci i c).counters
        = (slotChannels mode channels bs vs ci c).2 ∧
      bf ∣ (encodeChannels mode channels bf bs db vs ci i c).bitIdx ∧
      (encodeChannels mode channels bf bs db vs ci i c).bitIdx ≤ db.length ∧
      (∀ k, (slotChannels mode channels bs vs ci c).1.getD k false = false →
        (encodeChannels mode channels bf bs db vs ci i c).out.getD k 0
          = vs.getD k 0) ∧
      (∀ k, (encodeChannels mode channels bf bs db vs ci i c).out.getD k 0 / 2 ^ bf
        = vs.getD k 0 / 2 ^ bf) := by
  intro vs
  induction vs with
  | nil =>
      intro ci i c _ hdi hile
      refine ⟨rfl, rfl, hdi, hile, ?_, ?_⟩
      · intro k _; rfl
      · intro k; rfl
  | cons v vs ih =>
      intro ci i c hval hdi hile
      have hv : v < 256 := hval v (by simp)
      have hvs : ∀ x ∈ vs, x < 256 := fun x hx => hval x (by simp [hx])
      by_cases hch : mode.getD (ci % mode.length) ' ' ∈ channels
      · have hslotc : slotChannels mode channels bs (v :: vs) ci c
            = (decide (c (mode.getD (ci % mode.length) ' ') % bs = 0)
                :: (slotChannels mode channels bs vs (ci + 1)
                    (bump c (mode.getD (ci % mode.length) ' '))).1,
               (slotChannels mode channels bs vs (ci + 1)
                    (bump c (mode.getD (ci % mode.length) ' '))).2) := by
          simp only [slotChannels]
          rw [if_pos hch]
        by_cases hlt : i < db.length
        · by_cases hslot : c (mode.getD (ci % mode.length) ' ') % bs = 0
          · -- write slot
            have hstep : i + bf ≤ db.length := step_le_of_dvd hdi hdvd hlt
            have hslice : ((db.drop i).take bf).length = bf := by
              rw [List.length_take, List.length_drop]; omega
            have henc : encodeChannels mode channels bf bs db (v :: vs) ci i c
                = ⟨bitsFromList ((natToBits 8 v).take (8 - bf) ++ (db.drop i).take bf)
                    :: (encodeChannels mode channels bf bs db vs (ci + 1) (i + bf)
                        (bump c (mode.getD (ci % mode.length) ' '))).out,
                   (encodeChannels mode channels bf bs db vs (ci + 1) (i + bf)
                        (bump c (mode.getD (ci % mode.length) ' '))).bitIdx,
                   (encodeChannels mode channels bf bs db vs (ci + 1) (i + bf)
                        (bump c (mode.getD (ci % mode.length) ' '))).counters⟩ := by
              simp only [encodeChannels]
              rw [if_pos hch, if_pos hlt, if_pos hslot]
            obtain ⟨ih1, ih2, ih3, ih4, ih5, ih6⟩ := ih (ci + 1) (i + bf)
              (bump c (mode.getD (ci % mode.length) ' ')) hvs
              (Dvd.dvd.add hdi (dvd_refl bf)) hstep
            rw [henc, hslotc]
            refine ⟨by simpa using ih1, ih2, ih3, ih4, ?_, ?_⟩
            · intro k hk
              cases k with
              | zero =>
                  exfalso
                  rw [List.getD_cons_zero] at hk
                  simp only [decide_eq_false_iff_not] at hk
                  exact hk hslot
              | succ k =>
                  rw [List.getD_cons_succ] at hk ⊢
                  rw [List.getD_cons_succ]
                  exact ih5 k hk
              -- n.b. both cons-getD rewrites above act on mark and value lists
            · intro k
              cases k with
              | zero =>
                  simp only [List.getD_cons_zero]
                  exact value_high_bits v hv bf hbf8 ((db.drop i).take bf) hslice
              | succ k =>
                  simp only [List.getD_cons_succ]
                  exact ih6 k
          · -- eligible, not a slot
            have henc : encodeChannels mode channels bf bs db (v :: vs) ci i c
                = ⟨v :: (encodeChannels mode channels bf bs db vs (ci + 1) i
                        (bump c (mode.getD (ci % mode.length) ' '))).out,
                   (encodeChannels mode channels bf bs db vs (ci + 1) i
                        (bump c (mode.getD (ci % mode.length) ' '))).bitIdx,
                   (encodeChannels mode channels bf bs db vs (ci + 1) i
                        (bump c (mode.getD (ci % mode.length) ' '))).counters⟩ := by
              simp only [encodeChannels]
              rw [if_pos hch, if_pos hlt, if_neg hslot]
            obtain ⟨ih1, ih2, ih3, ih4, ih5, ih6⟩ := ih (ci + 1) i
              (bump c (mode.getD (ci % mode.length) ' ')) hvs hdi hile
            rw [henc, hslotc]
            refine ⟨by simpa using ih1, ih2, ih3, ih4, ?_, ?_⟩
            · intro k hk
              cases k with
              | zero => simp
              | succ k =>
                  rw [List.getD_cons_succ] at hk ⊢
                  rw [List.getD_cons_succ]
                  exact ih5 k hk
            · intro k
              cases k with
              | zero => simp
              | succ k =>
                  simp only [List.getD_cons_succ]
                  exact ih6 k
        · -- payload exhausted: copy, but the counter still advances
          have henc : encodeChannels mode channels bf bs db (v :: vs) ci i c
              = ⟨v :: (encodeChannels mode channels bf bs db vs (ci + 1) i
                      (bump c (mode.getD (ci % mode.length) ' '))).out,
                 (encodeChannels mode channels bf bs db vs (ci + 1) i
                      (bump c (mode.getD (ci % mode.length) ' '))).bitIdx,
                 (encodeChannels mode channels bf bs db vs (ci + 1) i
                      (bump c (mode.getD (ci % mode.length) ' '))).counters⟩ := by
            simp only [encodeChannels]
            rw [if_pos hch, if_neg hlt]
          obtain ⟨ih1, ih2, ih3, ih4, ih5, ih6⟩ := ih (ci + 1) i
            (bump c (mode.getD (ci % mode.length) ' ')) hvs hdi hile
          rw [henc, hslotc]
          refine ⟨by simpa using ih1, ih2, ih3, ih4, ?_, ?_⟩
          · intro k hk
            cases k with
            | zero => simp
            | succ k =>
                rw [List.getD_cons_succ] at hk ⊢
                rw [List.getD_cons_succ]
                exact ih5 k hk
          · intro k
            cases k with
            | zero => simp
            | succ k =>
                simp only [List.getD_cons_succ]
                exact ih6 k
      · -- channel not active: copied through, counter untouched
        have hslotc : slotChannels mode channels bs (v :: vs) ci c
            = (false :: (slotChannels mode channels bs vs (ci + 1) c).1,
               (slotChannels mode channels bs vs (ci + 1) c).2) := by
          simp only [slotChannels]
          rw [if_neg hch]
        have henc : encodeChannels mode channels bf bs db (v :: vs) ci i c
            = ⟨v :: (encodeChannels mode channels bf bs db vs (ci + 1) i c).out,
               (encodeChannels mode channels bf bs db vs (ci + 1) i c).bitIdx,
               (encodeChannels mode channels bf bs db vs (ci + 1) i c).counters⟩ := by
          simp only [encodeChannels]
          rw [if_neg hch]
        obtain ⟨ih1, ih2, ih3, ih4, ih5, ih6⟩ := ih (ci + 1) i c hvs hdi hile
        rw [henc, hslotc]
        refine ⟨by simpa using ih1, ih2, ih3, ih4, ?_, ?_⟩
        · intro k hk
          cases k with
          | zero => simp
          | succ k =>
              rw [List.getD_cons_succ] at hk ⊢
              rw [List.getD_cons_succ]
              exact ih5 k hk
        · intro k
          cases k with
          | zero => simp
          | succ k =>
              simp only [List.getD_cons_succ]
              exact ih6 k

theorem encodePixels_shape (mode channels : List Char) (bf bs : Nat)
    (db : List Bool) :
    ∀ (ps : List (List Nat)) (idx i : Nat) (c : Char → Nat),
      i < db.length →
      db.length ≤ (encodePixels mode channels bf bs db ps idx i c).bitIdx →
      (encodePixels mode channels bf bs db ps idx i c).lastPixel + 1
        = idx + (encodePixels mode channels bf bs db ps idx i c).out.length := by
  intro ps
  induction ps with
  | nil =>
      intro idx i c hlt hcap
      exfalso
      simp only [encodePixels] at hcap
      omega
  | cons p ps ih =>
      intro idx i c hlt hcap
      by_cases hbrk : db.length ≤ (encodeChannels mode channels bf bs db p 0 i c).bitIdx
      · have henc : encodePixels mode channels bf bs db (p :: ps) idx i c
            = ⟨[(encodeChannels mode channels bf bs db p 0 i c).out], idx,
               (encodeChannels mode channels bf bs db p 0 i c).bitIdx⟩ := by
          simp only [encodePixels]
          rw [if_pos hbrk]
        rw [henc]
        simp
      · have henc : encodePixels mode channels bf bs db (p :: ps) idx i c
            = ⟨(encodeChannels mode channels bf bs db p 0 i c).out
                :: (encodePixels mode channels bf bs db ps (idx + 1)
                    (encodeChannels mode channels bf bs db p 0 i c).bitIdx
                    (encodeChannels mode channels bf bs db p 0 i c).counters).out,
               (encodePixels mode channels bf bs db ps (idx + 1)
                    (encodeChannels mode channels bf bs db p 0 i c).bitIdx
                    (encodeChannels mode channels bf bs db p 0 i c).counters).lastPixel,
               (encodePixels mode channels bf bs db ps (idx + 1)
                    (encodeChannels mode channels bf bs db p 0 i c).bitIdx
                    (encodeChannels mode channels bf bs db p 0 i c).counters).bitIdx⟩ := by
          simp only [encodePixels]
          rw [if_neg hbrk]
        rw [henc] at hcap ⊢
        dsimp only at hcap ⊢
        have hrec := ih (idx + 1)
          (encodeChannels mode channels bf bs db p 0 i c).bitIdx
          (encodeChannels mode channels bf bs db p 0 i c).counters
          (by omega) hcap
        simp only [List.length_cons]
        omega

theorem slotPixels_marks_active (mode channels : List Char) (bs : Nat) :
    ∀ (ps : List (List Nat)) (c : Char → Nat) (j k : Nat),
      ((slotPixels mode channels bs ps c).getD j []).getD k false = true →
      mode.getD (k % mode.length) ' ' ∈ channels := by
  intro ps
  induction ps with
  | nil => intro c j k h; simp [slotPixels, List.getD] at h
  | cons p ps ih =>
      intro c j k h
      cases j with
      | zero =>
          simp only [slotPixels, List.getD_cons_zero] at h
          simpa using slotChannels_marks_active mode channels bs p 0 c k h
      | succ j =>
          simp only [slotPixels, List.getD_cons_succ] at h
          exact ih _ j k h

theorem encodePixels_writes (mode channels : List Char) (bf bs : Nat)
    (db : List Bool) (hbf8 : bf ≤ 8) (hdvd : bf ∣ db.length) :
    ∀ (ps : List (List Nat)) (idx i : Nat) (c : Char → Nat),
      (∀ p ∈ ps, ∀ v ∈ p, v < 256) → bf ∣ i → i ≤ db.length →
      ∀ j k, j < (encodePixels mode channels bf bs db ps idx i c).out.length →
        (((slotPixels mode channels bs ps c).getD j []).getD k false = false →
          ((encodePixels mode channels bf bs db ps idx i c).out.getD j []).getD k 0
            = (ps.getD j []).getD k 0) ∧
        ((encodePixels mode channels bf bs db ps idx i c).out.getD j []).getD k 0
            / 2 ^ bf
          = (ps.getD j []).getD k 0 / 2 ^ bf := by
  intro ps
  induction ps with
  | nil =>
      intro idx i c _ _ _ j k hj
      exfalso
      simp [encodePixels] at hj
  | cons p ps ih =>
      intro idx i c hval hdi hile j k hj
      obtain ⟨w1, w2, w3, w4, w5, w6⟩ :=
        encodeChannels_writes mode channels bf bs db hbf8 hdvd p 0 i c
          (hval p (by simp)) hdi hile
      by_cases hbrk : db.length ≤ (encodeChannels mode channels bf bs db p 0 i c).bitIdx
      · have henc : encodePixels mode channels bf bs db (p :: ps) idx i c
            = ⟨[(encodeChannels mode channels bf bs db p 0 i c).out], idx,
               (encodeChannels mode channels bf bs db p 0 i c).bitIdx⟩ := by
          simp only [encodePixels]
          rw [if_pos hbrk]
        rw [henc] at hj ⊢
        dsimp only at hj
        cases j with
        | zero =>
            refine ⟨fun hm => ?_, ?_⟩
            · simp only [slotPixels, List.getD_cons_zero] at hm ⊢
              exact w5 k hm
            · simpa using w6 k
        | succ j =>
            exfalso
            simp at hj
      · have henc : encodePixels mode channels bf bs db (p :: ps) idx i c
            = ⟨(encodeChannels mode channels bf bs db p 0 i c).out
                :: (encodePixels mode channels bf bs db ps (idx + 1)
                    (encodeChannels mode channels bf bs db p 0 i c).bitIdx
                    (encodeChannels mode channels bf bs db p 0 i c).counters).out,
               (encodePixels mode channels bf bs db ps (idx + 1)
                    (encodeChannels mode channels bf bs db p 0 i c).bitIdx
                    (encodeChannels mode channels bf bs db p 0 i c).counters).lastPixel,
               (encodePixels mode channels bf bs db ps (idx + 1)
                    (encodeChannels mode channels bf bs db p 0 i c).bitIdx
                    (encodeChannels mode channels bf bs db p 0 i c).counters).bitIdx⟩ := by
          simp only [encodePixels]
          rw [if_neg hbrk]
        rw [henc] at hj ⊢
        dsimp only at hj ⊢
        cases j with
        | zero =>
            refine ⟨fun hm => ?_, ?_⟩
            · simp only [slotPixels, List.getD_cons_zero] at hm ⊢
              exact w5 k hm
            · simpa using w6 k
        | succ j =>
            have hj' : j < (encodePixels mode channels bf bs db ps (idx + 1)
                (encodeChannels mode channels bf bs db p 0 i c).bitIdx
                (encodeChannels mode channels bf bs db p 0 i c).counters).out.length := by
              simpa using hj
            have hrec := ih (idx + 1)
              (encodeChannels mode channels bf bs db p 0 i c).bitIdx
              (encodeChannels mode channels bf bs db p 0 i c).counters
              (fun q hq => hval q (by simp [hq])) w3 w4 j k hj'
            refine ⟨fun hm => ?_, ?_⟩
            · simp only [slotPixels, List.getD_cons_succ] at hm
              rw [← w2] at hm
              simp only [List.getD_cons_succ]
              exact hrec.1 hm
            · simp only [List.getD_cons_succ]
              exact hrec.2

/-- C9 (amended): under the same premises as the round-trip law (the encoder
completes — the capacity premise — and `bit_frequency` divides `8·|D|`, which
rules out the misaligned final partial write), encoding is non-invasive:
pixels before `offset` and after the last touched pixel are bit-identical,
and inside the touched range a channel value can change only at an
eligible write slot (active channel letter with counter
`≡ 0 (mod byte_spacing)`, as marked by `slotPixels`), and then only in its
low `bit_frequency` bits.  Without the divisibility premise a write-slot
value can change outside its low `bit_frequency` bits (see the
counterexample). -/
theorem claim_C9_non_invasiveness_amended (mode channels : List Char)
    (pixels : List (List Nat)) (D : List Nat)
    (bitFrequency byteSpacing offset : Nat)
    (hbf : 1 ≤ bitFrequency) (hbf8 : bitFrequency ≤ 8) (hbs : 1 ≤ byteSpacing)
    (hoff : offset < pixels.length)
    (hpix : ∀ p ∈ pixels, ∀ v ∈ p, v < 256)
    (hD : ∀ b ∈ D, b < 256)
    (hdvd : bitFrequency ∣ 8 * D.length)
    (hcap : 8 * D.length ≤ (encodePixels mode channels bitFrequency byteSpacing
        (bytesToBits D) (pixels.drop offset) offset 0 (fun _ => 0)).bitIdx) :
    (encode_data mode pixels D channels bitFrequency byteSpacing offset).1.take offset
        = pixels.take offset ∧
    (encode_data mode pixels D channels bitFrequency byteSpacing offset).1.drop
        ((encodePixels mode channels bitFrequency byteSpacing (bytesToBits D)
          (pixels.drop offset) offset 0 (fun _ => 0)).lastPixel + 1)
      = pixels.drop ((encodePixels mode channels bitFrequency byteSpacing (bytesToBits D)
          (pixels.drop offset) offset 0 (fun _ => 0)).lastPixel + 1) ∧
    ∀ j k, offset ≤ j →
      j ≤ (encodePixels mode channels bitFrequency byteSpacing (bytesToBits D)
          (pixels.drop offset) offset 0 (fun _ => 0)).lastPixel →
      ((((encode_data mode pixels D channels bitFrequency byteSpacing offset).1.getD
            j []).getD k 0 ≠ (pixels.getD j []).getD k 0 →
        ((slotPixels mode channels byteSpacing (pixels.drop offset)
            (fun _ => 0)).getD (j - offset) []).getD k false = true ∧
        mode.getD (k % mode.length) ' ' ∈ channels) ∧
      ((encode_data mode pixels D channels bitFrequency byteSpacing offset).1.getD
          j []).getD k 0 / 2 ^ bitFrequency
        = (pixels.getD j []).getD k 0 / 2 ^ bitFrequency) := by
  rcases List.eq_nil_or_concat D with hDnil | hne0
  case inl =>
    subst hDnil
    have ho : (encode_data mode pixels [] channels bitFrequency byteSpacing offset).1
        = pixels :=
      congrArg Prod.fst
        (encode_data_nil_payload mode pixels channels bitFrequency byteSpacing offset hoff)
    refine ⟨by rw [ho], by rw [ho], ?_⟩
    intro j k _ _
    refine ⟨fun hne => absurd (by rw [ho]) hne, by rw [ho]⟩
  case inr =>
    have hDne : D ≠ [] := by
      obtain ⟨l, a, rfl⟩ := hne0
      simp
    have hDpos : 0 < D.length := List.length_pos.mpr hDne
    have hdb : (bytesToBits D).length = 8 * D.length := bytesToBits_length D
    have htakelen : (pixels.take offset).length = offset := by
      rw [List.length_take]; omega
    have hvals : ∀ p ∈ pixels.drop offset, ∀ v ∈ p, v < 256 :=
      fun p hp => hpix p (List.mem_of_mem_drop hp)
    have hshape := encodePixels_shape mode channels bitFrequency byteSpacing
      (bytesToBits D) (pixels.drop offset) offset 0 (fun _ => 0)
      (by omega) (by omega)
    have ho : (encode_data mode pixels D channels bitFrequency byteSpacing offset).1
        = pixels.take offset
          ++ (encodePixels mode channels bitFrequency byteSpacing (bytesToBits D)
              (pixels.drop offset) offset 0 (fun _ => 0)).out
          ++ pixels.drop ((encodePixels mode channels bitFrequency byteSpacing
              (bytesToBits D) (pixels.drop offset) offset 0 (fun _ => 0)).lastPixel + 1)
        := rfl
    have hablen : (pixels.take offset
        ++ (encodePixels mode channels bitFrequency byteSpacing (bytesToBits D)
            (pixels.drop offset) offset 0 (fun _ => 0)).out).length
        = (encodePixels mode channels bitFrequency byteSpacing (bytesToBits D)
            (pixels.drop offset) offset 0 (fun _ => 0)).lastPixel + 1 := by
      rw [List.length_append, htakelen]
      omega
    refine ⟨?_, ?_, ?_⟩
    · rw [ho, List.append_assoc]
      exact List.take_left' htakelen
    · rw [ho]
      exact List.drop_left' hablen
    · intro j k hj1 hj2
      have hm : j - offset < (encodePixels mode channels bitFrequency byteSpacing
          (bytesToBits D) (pixels.drop offset) offset 0 (fun _ => 0)).out.length := by
        omega
      have hoj : ((encode_data mode pixels D channels bitFrequency byteSpacing
            offset).1.getD j [])
          = ((encodePixels mode channels bitFrequency byteSpacing (bytesToBits D)
              (pixels.drop offset) offset 0 (fun _ => 0)).out.getD (j - offset) []) := by
        rw [ho]
        rw [getD_append_left (pixels.take offset
            ++ (encodePixels mode channels bitFrequency byteSpacing (bytesToBits D)
                (pixels.drop offset) offset 0 (fun _ => 0)).out)
            (pixels.drop ((encodePixels mode channels bitFrequency byteSpacing
              (bytesToBits D) (pixels.drop offset) offset 0 (fun _ => 0)).lastPixel + 1))
            j (by rw [hablen]; omega) []]
        conv_lhs => rw [show j = (pixels.take offset).length + (j - offset) from by
          rw [htakelen]; omega]
        rw [getD_append_right]
      have hpj : pixels.getD j []
          = (pixels.drop offset).getD (j - offset) [] := by
        rw [getD_drop pixels offset (j - offset) []]
        congr 1
        omega
      have hW := encodePixels_writes mode channels bitFrequency byteSpacing
        (bytesToBits D) hbf8 (by rw [hdb]; exact hdvd)
        (pixels.drop offset) offset 0 (fun _ => 0) hvals (dvd_zero bitFrequency)
        (Nat.zero_le _) (j - offset) k hm
      constructor
      · intro hne
        rw [hoj, hpj] at hne
        cases hmk : ((slotPixels mode channels byteSpacing (pixels.drop offset)
            (fun _ => 0)).getD (j - offset) []).getD k false with
        | false => exact absurd (hW.1 hmk) hne
        | true =>
            exact ⟨rfl, slotPixels_marks_active mode channels byteSpacing
              (pixels.drop offset) (fun _ => 0) (j - offset) k hmk⟩
      · rw [hoj, hpj]
        exact hW.2

theorem claim_C9_witness :
    ((encode_data ['L'] [[7], [7], [7]] [0] ['L'] 8 1 1).1.take 1
        = ([[7], [7], [7]] : List (List Nat)).take 1) ∧
    ((encode_data ['L'] [[7], [7], [7]] [0] ['L'] 8 1 1).1.drop
        ((encodePixels ['L'] ['L'] 8 1 (bytesToBits [0])
          (([[7], [7], [7]] : List (List Nat)).drop 1) 1 0 (fun _ => 0)).lastPixel + 1)
      = ([[7], [7], [7]] : List (List Nat)).drop
        ((encodePixels ['L'] ['L'] 8 1 (bytesToBits [0])
          (([[7], [7], [7]] : List (List Nat)).drop 1) 1 0 (fun _ => 0)).lastPixel + 1)) ∧
    ((((encode_data ['L'] [[7], [7], [7]] [0] ['L'] 8 1 1).1.getD 1 []).getD 0 0
        ≠ (([[7], [7], [7]] : List (List Nat)).getD 1 []).getD 0 0 →
      ((slotPixels ['L'] ['L'] 1 (([[7], [7], [7]] : List (List Nat)).drop 1)
          (fun _ => 0)).getD (1 - 1) []).getD 0 false = true ∧
      List.getD ['L'] (0 % List.length ['L']) ' ' ∈ ['L']) ∧
    ((encode_data ['L'] [[7], [7], [7]] [0] ['L'] 8 1 1).1.getD 1 []).getD 0 0 / 2 ^ 8
      = (([[7], [7], [7]] : List (List Nat)).getD 1 []).getD 0 0 / 2 ^ 8) :=
  ⟨(claim_C9_non_invasiveness_amended ['L'] ['L'] [[7], [7], [7]] [0] 8 1 1
      (by decide) (by decide) (by decide) (by decide) (by decide) (by decide)
      (by decide) (by decide)).1,
   (claim_C9_non_invasiveness_amended ['L'] ['L'] [[7], [7], [7]] [0] 8 1 1
      (by decide) (by decide) (by decide) (by decide) (by decide) (by decide)
      (by decide) (by decide)).2.1,
   (claim_C9_non_invasiveness_amended ['L'] ['L'] [[7], [7], [7]] [0] 8 1 1
      (by decide) (by decide) (by decide) (by decide) (by decide) (by decide)
      (by decide) (by decide)).2.2 1 0 (by decide) (by decide)⟩

/-- C9 counterexample: with `bit_frequency = 3` (a resolved value the claim
admits) and the one-byte payload `b"\x00"` on the raster of pixel value `8`,
the third write slot is a partial write: pixel 2 changes from `8` to `4`,
so bits above the low three change — `8 / 2^3 = 1` but `4 / 2^3 = 0` —
contradicting the claim that only the low `bit_frequency` bits of write-slot
channels may change. -/
theorem claim_C9_counterexample :
    ¬ ((((encode_data ['L'] [[8], [8], [8], [8], [8], [8], [8], [8]]
          [0] ['L'] 3 1 0).1.getD 2 []).getD 0 0) / 2 ^ 3
        = (([[8], [8], [8], [8], [8], [8], [8], [8]] :
            List (List Nat)).getD 2 []).getD 0 0 / 2 ^ 3) := by decide

/-- C5: for a pattern that resolves successfully against the layout and a
valid repetitive-redundancy mode (a §3 data-model invariant), the computed
maximum capacity is exactly the claimed formula over the resolved active
channels. -/
theorem claim_C5_max_capacity_formula (P : PatternRec) (w h : Nat)
    (M : List Char) (g : GeneratedPattern) (hg : generate_pattern P M = some g)
    (hmode : pyLower P.repetitive_redundancy_mode = "byte_per_byte".data
      ∨ pyLower P.repetitive_redundancy_mode = "block".data) :
    calculate_max_data_size P (w, h) M
      = some (claimed_max_data_size (w * h)
          (g.channels.filter (fun c => c ∈ M)).length
          P.bit_frequency P.byte_spacing P.advanced_redundancy
          P.advanced_redundancy_correction_factor P.repetitive_redundancy) := by
  simp only [calculate_max_data_size, hg, claimed_max_data_size]
  have hassoc : w * h
        * ((g.channels.filter (fun c => c ∈ M)).length * P.bit_frequency)
      = w * h * (g.channels.filter (fun c => c ∈ M)).length
            * P.bit_frequency := by
    ring
  rw [hassoc]
  by_cases hadv : pyLower P.advanced_redundancy = "reed_solomon".data
  · rw [if_pos hadv, if_pos hadv]
    by_cases hrep : 1 < P.repetitive_redundancy
    · rw [if_pos hrep, if_pos hmode, if_pos hrep]
    · rw [if_neg hrep, if_neg hrep]
  · rw [if_neg hadv, if_neg hadv]
    by_cases hrep : 1 < P.repetitive_redundancy
    · rw [if_pos hrep, if_pos hmode, if_pos hrep]
      simp
    · rw [if_neg hrep, if_neg hrep]
      simp

theorem claim_C5_witness :
    calculate_max_data_size
      ⟨0, "rgb".data, 1, 1, some "sha256".data, "none".data, 6,
        "reed_solomon".data, ⟨1, 10⟩, 3, "byte_per_byte".data, true, true,
        false, "auto".data, "auto".data, 1, 1, 5, "reed_solomon".data,
        ⟨1, 10⟩⟩ (8, 4) "RGB".data
      = some (claimed_max_data_size (8 * 4) 3 1 1 "reed_solomon".data
          ⟨1, 10⟩ 3) := by
  rw [claim_C5_max_capacity_formula
    ⟨0, "rgb".data, 1, 1, some "sha256".data, "none".data, 6,
      "reed_solomon".data, ⟨1, 10⟩, 3, "byte_per_byte".data, true, true,
      false, "auto".data, "auto".data, 1, 1, 5, "reed_solomon".data,
      ⟨1, 10⟩⟩ 8 4 "RGB".data
    ⟨0, "RGB".data, 1, 1, some "sha256".data, false, "none".data, 6,
      "reed_solomon".data, ⟨1, 10⟩, 3, "byte_per_byte".data, true, true,
      false, "RGB".data, "before_data".data, 1, 1, 5, "reed_solomon".data,
      ⟨1, 10⟩⟩ (by decide) (by decide)]
  decide

/-- C6 (amended): with `header_channels = "auto"`, resolution picks the
most-hidden single channel (`A`, else `B`, else the first layout letter) when
the header is discoverable; otherwise it falls back to the **full image
layout** `M` — not to the data channels, as the claim (and spec §4.5) state:
when the data channels are a proper subset of `M`, the two differ (see the
counterexample). -/
theorem claim_C6_header_auto_selection_amended (P : PatternRec)
    (M0 : List Char) (g : GeneratedPattern)
    (hg : generate_pattern P M0 = some g)
    (hauto : pyLower P.header_channels = "auto".data) :
    ((P.header_enabled ∧ P.header_write_data_size
        ∧ (P.header_write_pattern ∨ P.header_position = "image_start".data)) →
      g.header_channels =
        (if 'A' ∈ pyUpper M0 then "A".data
         else if 'B' ∈ pyUpper M0 then "B".data
         else [(pyUpper M0).headD ' '])) ∧
    (¬ (P.header_enabled ∧ P.header_write_data_size
        ∧ (P.header_write_pattern ∨ P.header_position = "image_start".data)) →
      g.header_channels = pyUpper M0) := by
  have hres : g.header_channels = resolveHeaderChannels P (pyUpper M0) := by
    simp only [generate_pattern] at hg
    split at hg
    · exact absurd hg (by simp)
    · split at hg
      · exact absurd hg (by simp)
      · split at hg
        · exact absurd hg (by simp)
        · injection hg with hgr
          rw [← hgr]
  constructor
  · intro hdisc
    rw [hres]
    simp only [resolveHeaderChannels]
    rw [if_pos hauto, if_pos hdisc]
  · intro hdisc
    rw [hres]
    simp only [resolveHeaderChannels]
    rw [if_pos hauto, if_neg hdisc]

theorem claim_C6_witness :
    (⟨0, "R".data, 1, 1, some "sha256".data, false, "none".data, 6,
      "none".data, ⟨1, 10⟩, 1, "byte_per_byte".data, true, false, false,
      "RGBA".data, "before_data".data, 1, 1, 5, "none".data, ⟨1, 10⟩⟩
      : GeneratedPattern).header_channels = pyUpper "RGBA".data :=
  (claim_C6_header_auto_selection_amended
    ⟨0, "r".data, 1, 1, some "sha256".data, "none".data, 6, "none".data,
      ⟨1, 10⟩, 1, "byte_per_byte".data, true, false, false, "auto".data,
      "auto".data, 1, 1, 5, "none".data, ⟨1, 10⟩⟩ "RGBA".data
    ⟨0, "R".data, 1, 1, some "sha256".data, false, "none".data, 6,
      "none".data, ⟨1, 10⟩, 1, "byte_per_byte".data, true, false, false,
      "RGBA".data, "before_data".data, 1, 1, 5, "none".data, ⟨1, 10⟩⟩
    (by decide) (by decide)).2 (by decide)

/-- C6 counterexample: a non-discoverable `"auto"` header (header enabled but
`header_write_data_size = False`) on an RGBA image with data channels `"r"`:
the resolved header channels are the full layout `"RGBA"`, not the data
channels `"R"` — the claim's fallback clause is false on the code. -/
theorem claim_C6_counterexample :
    ¬ ((generate_pattern
        ⟨0, "r".data, 1, 1, some "sha256".data, "none".data, 6, "none".data,
          ⟨1, 10⟩, 1, "byte_per_byte".data, true, false, false, "auto".data,
          "auto".data, 1, 1, 5, "none".data, ⟨1, 10⟩⟩
        "RGBA".data).map GeneratedPattern.header_channels
      = (generate_pattern
        ⟨0, "r".data, 1, 1, some "sha256".data, "none".data, 6, "none".data,
          ⟨1, 10⟩, 1, "byte_per_byte".data, true, false, false, "auto".data,
          "auto".data, 1, 1, 5, "none".data, ⟨1, 10⟩⟩
        "RGBA".data).map GeneratedPattern.channels) := by decide

theorem generate_pattern_fields (P : PatternRec) (Mi : List Char)
    (g : GeneratedPattern) (hg : generate_pattern P Mi = some g) :
    g.hash_check = P.hash_check ∧
    g.compression = P.compression ∧
    g.compression_strength = P.compression_strength ∧
    g.compression_enabled
      = decide (P.compression ≠ [] ∧ P.compression ≠ "none".data) := by
  simp only [generate_pattern] at hg
  split at hg
  · exact absurd hg (by simp)
  · split at hg
    · exact absurd hg (by simp)
    · split at hg
      · exact absurd hg (by simp)
      · injection hg with hgr
        rw [← hgr]
        exact ⟨rfl, rfl, rfl, rfl⟩

/-- C2 (evaluation of the code at the failing input): `static_compress_data`
does flag its output (`b'0'` = 48 when zlib does not shrink the payload),
but `static_decompress_data` never strips the flag nor decompresses: the
guard `data[0] == b'1'` compares an `int` with `bytes` and is always
`False`, so the flagged buffer itself comes back — the claimed round trip
`decompress(compress(D)) = D` fails for every non-empty `D`, and even a
buffer carrying the `b'1'` flag is returned verbatim. -/
theorem claim_C2_compression_flag_bug :
    (static_compress_data (fun _ => List.replicate 9 0) [65] "zlib".data 6
        = some [48, 65]
      ∧ static_decompress_data [48, 65] "zlib".data = some [48, 65]
      ∧ static_decompress_data [48, 65] "zlib".data ≠ some [65])
    ∧ ∀ rest : List Nat,
        static_decompress_data (49 :: rest) "zlib".data = some (49 :: rest) := by
  refine ⟨by decide, fun rest => rfl⟩

/-- C3 (amended): the encoder appends `H(D)` to the payload `D` (this runs
BEFORE compression, not after it as claimed); the decoder always splits off
the trailing 32 bytes — the literal in `extract_data`, not the digest length
of the configured algorithm — recomputes the digest of the remainder and
raises `DataIntegrityCheckFailedError` iff it differs from the split-off
bytes.  The pair round-trips exactly for algorithms with 32-byte digests. -/
theorem claim_C3_integrity_amended (H : List Nat → List Nat) :
    (∀ D : List Nat, (H D).length = 32 →
        extract_hash_check H (apply_hash_stage H D) = Except.ok D)
    ∧ ∀ data : List Nat,
        (extract_hash_check H data = Except.error ()
          ↔ H (data.take (data.length - 32)) ≠ data.drop (data.length - 32)) := by
  constructor
  · intro D h32
    have hl : D.length + (H D).length - 32 = D.length := by omega
    simp only [extract_hash_check, apply_hash_stage, List.length_append, hl,
      List.take_left, List.drop_left, if_true]
  · intro data
    by_cases h : H (data.take (data.length - 32)) = data.drop (data.length - 32)
    · simp [extract_hash_check, h]
    · simp [extract_hash_check, h]

theorem claim_C3_witness :
    extract_hash_check (fun _ => List.replicate 32 7)
        (apply_hash_stage (fun _ => List.replicate 32 7) [5]) = Except.ok [5]
    ∧ (extract_hash_check (fun _ => List.replicate 32 7) [9]
        = Except.error ()
      ↔ (fun _ : List Nat => List.replicate 32 7) (List.take (1 - 32) [9])
          ≠ List.drop (1 - 32) [9]) :=
  ⟨(claim_C3_integrity_amended (fun _ => List.replicate 32 7)).1 [5] (by decide),
   by
    have h := (claim_C3_integrity_amended (fun _ => List.replicate 32 7)).2 [9]
    simpa using h⟩

/-- C3 (counterexample to the claim as stated): for a 64-byte digest
function — the claim's own SHA-512 example — the decoder still splits only
32 bytes, so decoding an uncorrupted encode of the empty payload raises the
integrity error instead of succeeding. -/
theorem claim_C3_counterexample :
    extract_hash_check (fun _ => List.replicate 64 1)
      (apply_hash_stage (fun _ => List.replicate 64 1) []) = Except.error () := by
  rfl

/-- C4 (counterexample to the claim as stated): the capacity check compares
`max_data_size` against the TRANSFORMED payload, after the hash append (and
compression / redundancy), not against `|D|`.  With the default
`hash_check = sha256` a 16x2 `L` image has `max_data_size = 4`, yet encoding
a 4-byte payload raises `ValueError` (`= none`): the pipeline output is
4 + 32 = 36 bytes. -/
theorem claim_C4_counterexample :
    calculate_max_data_size
        ⟨0, "l".data, 1, 1, some "sha256".data, "none".data, 6, "none".data,
          ⟨1, 10⟩, 1, "byte_per_byte".data, true, true, false, "auto".data,
          "auto".data, 1, 1, 5, "none".data, ⟨1, 10⟩⟩ (16, 2) "L".data
      = some 4
    ∧ apply_pattern_checked_payload (fun _ => List.replicate 32 0)
        (fun d => d) (fun _ mm => mm)
        ⟨0, "l".data, 1, 1, some "sha256".data, "none".data, 6, "none".data,
          ⟨1, 10⟩, 1, "byte_per_byte".data, true, true, false, "auto".data,
          "auto".data, 1, 1, 5, "none".data, ⟨1, 10⟩⟩ (16, 2) "L".data
        (List.replicate 4 0)
      = none := by decide

/-- C4 (amended): the boundary claim holds for the payload the check
actually sees.  When the transformation pipeline is the identity (hashing
disabled, compression `"none"`, advanced redundancy `"none"`, repetition 1),
a payload of exactly `max_data_size` bytes is accepted unchanged and a
payload of `max_data_size + 1` bytes raises `DataSizeTooLargeError`
(`= none`). -/
theorem claim_C4_capacity_boundary_amended (H : List Nat → List Nat)
    (zc : List Nat → List Nat) (e : Nat → List Nat → List Nat)
    (P : PatternRec) (w h : Nat) (mode : List Char) (m : Int)
    (hm : calculate_max_data_size P (w, h) mode = some m)
    (hhash : P.hash_check = none) (hcomp : P.compression = "none".data)
    (hadv : pyLower P.advanced_redundancy = "none".data)
    (hrep : P.repetitive_redundancy = 1)
    (D Dbig : List Nat) (hD : (D.length : Int) = m)
    (hDbig : (Dbig.length : Int) = m + 1) :
    apply_pattern_checked_payload H zc e P (w, h) mode D = some D
    ∧ apply_pattern_checked_payload H zc e P (w, h) mode Dbig = none := by
  have hgp : ∃ g, generate_pattern P mode = some g := by
    cases hgen : generate_pattern P mode with
    | none =>
        simp only [calculate_max_data_size, hgen] at hm
        exact absurd hm (by simp)
    | some g => exact ⟨g, rfl⟩
  obtain ⟨g, hgen⟩ := hgp
  obtain ⟨hgh, hgc, hgs, hge⟩ := generate_pattern_fields P mode g hgen
  have hce : g.compression_enabled = false := by
    rw [hge, hcomp]; decide
  have c1 : ¬("none".data = "reed_solomon".data ∨ "none".data = "rs".data) := by
    decide
  have c2 : ¬("none".data = "hamming".data ∨ "none".data = "ham".data) := by
    decide
  have c3 : ("none".data = "none".data ∨ "none".data = "no".data) := by decide
  have hpipe : ∀ X : List Nat,
      static_apply_redundancy e X P.repetitive_redundancy
        P.repetitive_redundancy_mode P.advanced_redundancy
        P.advanced_redundancy_correction_factor = some X := by
    intro X
    simp only [static_apply_redundancy, hadv, hrep]
    rw [if_neg c1, if_neg c2]
    simp
  constructor
  · simp only [apply_pattern_checked_payload, hgen, hgh, hhash, hce, hpipe,
      hm, Bool.false_eq_true, if_false]
    rw [hD, if_pos le_rfl]
  · simp only [apply_pattern_checked_payload, hgen, hgh, hhash, hce, hpipe,
      hm, Bool.false_eq_true, if_false]
    rw [hDbig, if_neg (by omega : ¬ m + 1 ≤ m)]

theorem claim_C4_witness :
    apply_pattern_checked_payload (fun _ => List.replicate 32 0)
        (fun d => d) (fun _ mm => mm)
        ⟨0, "l".data, 1, 1, none, "none".data, 6, "none".data,
          ⟨1, 10⟩, 1, "byte_per_byte".data, true, true, false, "auto".data,
          "auto".data, 1, 1, 5, "none".data, ⟨1, 10⟩⟩ (16, 2) "L".data
        (List.replicate 4 7)
      = some (List.replicate 4 7)
    ∧ apply_pattern_checked_payload (fun _ => List.replicate 32 0)
        (fun d => d) (fun _ mm => mm)
        ⟨0, "l".data, 1, 1, none, "none".data, 6, "none".data,
          ⟨1, 10⟩, 1, "byte_per_byte".data, true, true, false, "auto".data,
          "auto".data, 1, 1, 5, "none".data, ⟨1, 10⟩⟩ (16, 2) "L".data
        (List.replicate 5 7)
      = none :=
  claim_C4_capacity_boundary_amended (fun _ => List.replicate 32 0)
    (fun d => d) (fun _ mm => mm)
    ⟨0, "l".data, 1, 1, none, "none".data, 6, "none".data,
      ⟨1, 10⟩, 1, "byte_per_byte".data, true, true, false, "auto".data,
      "auto".data, 1, 1, 5, "none".data, ⟨1, 10⟩⟩ 16 2 "L".data 4
    (by decide) rfl rfl (by decide) rfl
    (List.replicate 4 7) (List.replicate 5 7) (by decide) (by decide)

/-! ## Round-trip facts for the Reed-Solomon chunking -/

theorem ceilTwiceMul_zero (f : Frac) : ceilTwiceMul f 0 = 0 := by
  unfold ceilTwiceMul
  rcases Nat.eq_zero_or_pos f.den with h | h
  · simp [h]
  · apply Nat.div_eq_of_lt
    omega

theorem den_mul_ceilTwiceMul_ge (f : Frac) (hden : 0 < f.den) (n : Nat) :
    2 * f.num * n ≤ f.den * ceilTwiceMul f n := by
  have h1 := Nat.div_add_mod (2 * f.num * n + f.den - 1) f.den
  have h2 := Nat.mod_lt (2 * f.num * n + f.den - 1) hden
  unfold ceilTwiceMul
  omega

theorem den_mul_ceilTwiceMul_le (f : Frac) (n : Nat) :
    f.den * ceilTwiceMul f n ≤ 2 * f.num * n + f.den - 1 := by
  unfold ceilTwiceMul
  rw [Nat.mul_comm]
  exact Nat.div_mul_le_self _ _

theorem ceilTwiceMul_subadd (f : Frac) (hden : 0 < f.den) (a b : Nat) :
    ceilTwiceMul f (a + b) ≤ ceilTwiceMul f a + ceilTwiceMul f b := by
  have ha := den_mul_ceilTwiceMul_ge f hden a
  have hb := den_mul_ceilTwiceMul_ge f hden b
  have hab := den_mul_ceilTwiceMul_le f (a + b)
  have hd : 2 * f.num * (a + b) = 2 * f.num * a + 2 * f.num * b := by ring
  have h1 : f.den * ceilTwiceMul f (a + b)
      < f.den * (ceilTwiceMul f a + ceilTwiceMul f b + 1) := by
    have hx : f.den * (ceilTwiceMul f a + ceilTwiceMul f b + 1)
        = f.den * ceilTwiceMul f a + f.den * ceilTwiceMul f b + f.den := by ring
    omega
  have := Nat.lt_of_mul_lt_mul_left h1
  omega

theorem floorDivOnePlusTwice_ceil (f : Frac) (hden : 0 < f.den) (L : Nat) :
    floorDivOnePlusTwice f (L + ceilTwiceMul f L) = L := by
  have h1 := den_mul_ceilTwiceMul_ge f hden L
  have h2 := den_mul_ceilTwiceMul_le f L
  unfold floorDivOnePlusTwice
  apply Nat.div_eq_of_lt_le
  · have e1 : L * (f.den + 2 * f.num) = L * f.den + 2 * f.num * L := by ring
    have e2 : (L + ceilTwiceMul f L) * f.den
        = L * f.den + f.den * ceilTwiceMul f L := by ring
    omega
  · have e2 : (L + ceilTwiceMul f L) * f.den
        = L * f.den + f.den * ceilTwiceMul f L := by ring
    have e3 : (L + 1) * (f.den + 2 * f.num)
        = L * f.den + 2 * f.num * L + f.den + 2 * f.num := by ring
    omega

theorem floorDivOnePlusTwice_255_pos (f : Frac) (hnum : 0 < f.num)
    (hle : f.num ≤ f.den) : 0 < floorDivOnePlusTwice f 255 := by
  unfold floorDivOnePlusTwice
  apply Nat.div_pos
  · omega
  · omega

theorem rs_encode_loop_length (e : Nat → List Nat → List Nat) (f : Frac)
    (hlen : ∀ k m, (e k m).length = m.length + k) (hden : 0 < f.den)
    (hmaxd : 0 < floorDivOnePlusTwice f 255) :
    ∀ n (data : List Nat) (rRem : Nat), data.length ≤ n →
      rRem ≤ ceilTwiceMul f data.length →
      (rs_encode_loop e f data rRem).length = data.length + rRem := by
  intro n
  induction n with
  | zero =>
      intro data rRem hn hr
      have hd0 : data = [] := List.length_eq_zero.mp (by omega)
      subst hd0
      have hr0 : rRem = 0 := by
        have := ceilTwiceMul_zero f
        simp only [List.length_nil] at hr
        omega
      subst hr0
      rw [rs_encode_loop]
      simp
  | succ n ih =>
      intro data rRem hn hr
      rcases Nat.eq_zero_or_pos data.length with hd0 | hdpos
      · have hd0' : data = [] := List.length_eq_zero.mp hd0
        subst hd0'
        have hr0 : rRem = 0 := by
          have := ceilTwiceMul_zero f
          simp only [List.length_nil] at hr
          omega
        subst hr0
        rw [rs_encode_loop]
        simp
      · have hds : 0 < min data.length (floorDivOnePlusTwice f 255) := by omega
        rw [rs_encode_loop, dif_pos hdpos]
        dsimp only
        rw [dif_pos hds]
        have hsc : data.length - min data.length (floorDivOnePlusTwice f 255)
              + min data.length (floorDivOnePlusTwice f 255) = data.length := by
          omega
        have hsub := ceilTwiceMul_subadd f hden
          (data.length - min data.length (floorDivOnePlusTwice f 255))
          (min data.length (floorDivOnePlusTwice f 255))
        rw [hsc] at hsub
        have htail := ih
          (data.drop (min data.length (floorDivOnePlusTwice f 255)))
          (rRem - min rRem (ceilTwiceMul f
            (min data.length (floorDivOnePlusTwice f 255))))
          (by
            rw [List.length_drop]
            omega)
          (by
            rw [List.length_drop]
            omega)
        rw [List.length_append, hlen, htail, List.length_take, List.length_drop]
        omega

theorem rs_loop_roundtrip (e dd : Nat → List Nat → List Nat) (f : Frac)
    (hlen : ∀ k m, (e k m).length = m.length + k)
    (hrt : ∀ k m, dd k (e k m) = m)
    (he0 : ∀ m, e 0 m = m)
    (hmaxd : 0 < floorDivOnePlusTwice f 255) :
    ∀ n (data : List Nat) (rRem : Nat), data.length ≤ n →
      rs_decode_loop dd f (rs_encode_loop e f data rRem) data.length rRem
        = data := by
  intro n
  induction n with
  | zero =>
      intro data rRem hn
      have hd0 : data = [] := List.length_eq_zero.mp (by omega)
      subst hd0
      rw [rs_encode_loop, rs_decode_loop]
      simp
  | succ n ih =>
      intro data rRem hn
      rcases Nat.eq_zero_or_pos data.length with hd0 | hdpos
      · have hd0' : data = [] := List.length_eq_zero.mp hd0
        subst hd0'
        rw [rs_encode_loop, rs_decode_loop]
        simp
      · have hds : 0 < min data.length (floorDivOnePlusTwice f 255) := by omega
        rw [rs_encode_loop, dif_pos hdpos]
        dsimp only
        rw [dif_pos hds]
        rw [rs_decode_loop, dif_pos hdpos]
        dsimp only
        rw [dif_pos hds]
        have hA : (e (min rRem (ceilTwiceMul f
              (min data.length (floorDivOnePlusTwice f 255))))
            (data.take (min data.length (floorDivOnePlusTwice f 255)))).length
            = min data.length (floorDivOnePlusTwice f 255)
              + min rRem (ceilTwiceMul f
                (min data.length (floorDivOnePlusTwice f 255))) := by
          rw [hlen, List.length_take]
          omega
        rw [List.take_left' hA, List.drop_left' hA]
        have hdl : data.length - min data.length (floorDivOnePlusTwice f 255)
            = (data.drop (min data.length (floorDivOnePlusTwice f 255))).length := by
          rw [List.length_drop]
        rw [hdl]
        rw [ih (data.drop (min data.length (floorDivOnePlusTwice f 255)))
          (rRem - min rRem (ceilTwiceMul f
            (min data.length (floorDivOnePlusTwice f 255))))
          (by
            rw [List.length_drop]
            omega)]
        by_cases hr0 : min rRem (ceilTwiceMul f
            (min data.length (floorDivOnePlusTwice f 255))) = 0
        · rw [if_pos hr0, hr0, he0, List.take_append_drop]
        · rw [if_neg hr0, hrt, List.take_take, Nat.min_self,
            List.take_append_drop]

/-- C7: Reed-Solomon chunked round trip.  For every byte string `D` and
every correction factor `f = num/den` in `(0, 1]`, `rs_decode` applied to
`rs_encode D` returns `D`: both sides derive identical chunk boundaries
(`min(remaining, floor(255·den/(den + 2·num)))` data symbols per chunk,
`min(remaining_redundant, ceil(2·f·chunk))` parity symbols), and the decoder
recovers the data-symbol count from the encoded length alone because
`floor((L + ceil(2fL)) / (1 + 2f)) = L`.  The external `RSCodec` enters as
`e`/`dd` with its documented behaviour as hypotheses. -/
theorem claim_C7_rs_roundtrip (e dd : Nat → List Nat → List Nat) (f : Frac)
    (hnum : 0 < f.num) (hfle : f.num ≤ f.den)
    (hlen : ∀ k m, (e k m).length = m.length + k)
    (hrt : ∀ k m, dd k (e k m) = m)
    (he0 : ∀ m, e 0 m = m)
    (D : List Nat) :
    rs_decode dd f (rs_encode e f D) = D := by
  have hden : 0 < f.den := lt_of_lt_of_le hnum hfle
  have hmaxd := floorDivOnePlusTwice_255_pos f hnum hfle
  rcases eq_or_ne D [] with hD | hD
  · subst hD
    have henc : rs_encode e f [] = [] := by
      unfold rs_encode
      simp only [List.length_nil, ceilTwiceMul_zero]
      norm_num
    rw [henc]
    unfold rs_decode floorDivOnePlusTwice
    simp only [List.length_nil, Nat.zero_mul, Nat.zero_div]
    rw [rs_decode_loop]
    simp
  · have hL : 0 < D.length := List.length_pos.mpr hD
    have henc : rs_encode e f D
        = rs_encode_loop e f D (ceilTwiceMul f D.length) := by
      unfold rs_encode
      rw [if_neg]
      omega
    have hlenc := rs_encode_loop_length e f hlen hden hmaxd D.length D
      (ceilTwiceMul f D.length) le_rfl le_rfl
    unfold rs_decode
    rw [henc, hlenc]
    dsimp only
    rw [floorDivOnePlusTwice_ceil f hden, Nat.add_sub_cancel_left]
    exact rs_loop_roundtrip e dd f hlen hrt he0 hmaxd D.length D
      (ceilTwiceMul f D.length) le_rfl

theorem claim_C7_witness :
    rs_decode (fun k m => m.take (m.length - k)) ⟨1, 10⟩
      (rs_encode (fun k m => m ++ List.replicate k 0) ⟨1, 10⟩ [1, 2, 3])
      = [1, 2, 3] :=
  claim_C7_rs_roundtrip (fun k m => m ++ List.replicate k 0)
    (fun k m => m.take (m.length - k)) ⟨1, 10⟩ (by decide) (by decide)
    (fun k m => by simp)
    (fun k m => by
      simp only [List.length_append, List.length_replicate,
        Nat.add_sub_cancel]
      exact List.take_left' rfl)
    (fun m => by simp)
    [1, 2, 3]

/-! ## Majority-vote reconstruction facts (claim C8) -/

theorem count_add_count_le (x b : Nat) (hxb : x ≠ b) :
    ∀ l : List Nat, l.count x + l.count b ≤ l.length := by
  intro l
  induction l with
  | nil => simp
  | cons a t ih =>
      simp only [List.length_cons]
      by_cases h1 : x = a
      · subst h1
        rw [List.count_cons_self, List.count_cons_of_ne (fun h => hxb h.symm)]
        omega
      · rw [List.count_cons_of_ne h1]
        by_cases h2 : b = a
        · subst h2
          rw [List.count_cons_self]
          omega
        · rw [List.count_cons_of_ne h2]
          omega

theorem foldl_max_init_le : ∀ (l : List Nat) (a : Nat), a ≤ l.foldl max a := by
  intro l
  induction l with
  | nil => intro a; exact le_rfl
  | cons x t ih =>
      intro a
      exact le_trans (le_max_left a x) (ih (max a x))

theorem foldl_max_of_mem : ∀ (l : List Nat) (a x : Nat), x ∈ l →
    x ≤ l.foldl max a := by
  intro l
  induction l with
  | nil => intro a x hx; simp at hx
  | cons y t ih =>
      intro a x hx
      rcases List.mem_cons.mp hx with rfl | hxt
      · exact le_trans (le_max_right a x) (foldl_max_init_le t (max a x))
      · exact ih (max a y) x hxt

theorem foldl_max_mem_or : ∀ (l : List Nat) (a : Nat),
    l.foldl max a = a ∨ l.foldl max a ∈ l := by
  intro l
  induction l with
  | nil => intro a; exact Or.inl rfl
  | cons y t ih =>
      intro a
      rcases ih (max a y) with h | h
      · rcases max_choice a y with hm | hm
        · exact Or.inl (by rw [List.foldl_cons, h, hm])
        · exact Or.inr (by rw [List.foldl_cons, h, hm]; exact List.mem_cons_self y t)
      · exact Or.inr (List.mem_cons_of_mem y h)

theorem filter_eq_singleton_of (b : Nat) (p : Nat → Bool) :
    ∀ l : List Nat, l.Nodup → b ∈ l → (∀ x ∈ l, (p x = true ↔ x = b)) →
      l.filter p = [b] := by
  intro l
  induction l with
  | nil => intro _ hb; simp at hb
  | cons a t ih =>
      intro hnd hb hp
      obtain ⟨hat, hndt⟩ := List.nodup_cons.mp hnd
      rcases List.mem_cons.mp hb with rfl | hbt
      · rw [List.filter_cons, if_pos ((hp b (List.mem_cons_self b t)).mpr rfl)]
        have ht : t.filter p = [] := by
          rw [List.filter_eq_nil_iff]
          intro x hx hpx
          exact hat (((hp x (List.mem_cons_of_mem b hx)).mp hpx) ▸ hx)
        rw [ht]
      · have hab : ¬ (p a = true) := by
          intro hpa
          exact hat (((hp a (List.mem_cons_self a t)).mp hpa) ▸ hbt)
        rw [List.filter_cons, if_neg hab]
        exact ih hndt hbt (fun x hx => hp x (List.mem_cons_of_mem a hx))

/-- A byte holding a strict majority of a group wins the vote without ever
reaching the neighbor tie-break. -/
theorem majority_vote_byte_of_strict (full : List Nat) (k : Nat)
    (recon : List Nat) (group : List Nat) (b : Nat)
    (hmaj : group.length < 2 * group.count b) :
    majority_vote_byte full k recon group = b := by
  have hbmem : b ∈ group := by
    by_contra h
    rw [List.count_eq_zero.mpr h] at hmaj
    omega
  have hb_keys : b ∈ group.dedup := List.mem_dedup.mpr hbmem
  have hcount_lt : ∀ x, x ≠ b → group.count x < group.count b := by
    intro x hx
    have h1 := count_add_count_le x b hx group
    omega
  unfold majority_vote_byte pySet
  dsimp only
  by_cases h1 : group.dedup.length = 1
  · rw [if_pos h1]
    obtain ⟨x, hx⟩ := List.length_eq_one.mp h1
    rw [hx]
    rw [hx] at hb_keys
    simp only [List.mem_singleton] at hb_keys
    rw [hb_keys]
    rfl
  · rw [if_neg h1]
    have hmax : (group.dedup.map (fun x => group.count x)).foldl max 0
        = group.count b := by
      apply le_antisymm
      · rcases foldl_max_mem_or (group.dedup.map (fun x => group.count x)) 0
            with h | h
        · rw [h]
          exact Nat.zero_le _
        · obtain ⟨x, hxk, hxe⟩ := List.mem_map.mp h
          rw [← hxe]
          by_cases hxb : x = b
          · rw [hxb]
          · exact le_of_lt (hcount_lt x hxb)
      · exact foldl_max_of_mem _ 0 _ (List.mem_map.mpr ⟨b, hb_keys, rfl⟩)
    rw [hmax]
    have hcand : group.dedup.filter (fun x => group.count x = group.count b)
        = [b] := by
      apply filter_eq_singleton_of b _ group.dedup (List.nodup_dedup group)
        hb_keys
      intro x hx
      constructor
      · intro hpx
        by_contra hxb
        have := hcount_lt x hxb
        simp only [decide_eq_true_eq] at hpx
        omega
      · intro hxe
        subst hxe
        simp
    rw [hcand]
    rfl

/-- The reconstruction loop returns the voted byte of every stride-`k`
group, provided each group is won by strict majority (so the accumulator
never feeds back through the tie-break). -/
theorem reconstructLoop_spec (k : Nat) (hk : 0 < k) :
    ∀ (Dsuf full : List Nat) (i : Nat) (acc : List Nat),
      full.length = i + k * Dsuf.length →
      (∀ j, j < Dsuf.length →
        ((full.drop (i + j * k)).take k).length
          < 2 * ((full.drop (i + j * k)).take k).count (Dsuf.getD j 0)) →
      reconstructLoop full k i acc = acc ++ Dsuf := by
  intro Dsuf
  induction Dsuf with
  | nil =>
      intro full i acc hl hm
      rw [reconstructLoop, dif_neg]
      · simp
      · rintro ⟨h1, _⟩
        simp only [List.length_nil, Nat.mul_zero, Nat.add_zero] at hl
        omega
  | cons d ds ih =>
      intro full i acc hl hm
      have hkk : k * (ds.length + 1) = k * ds.length + k := by ring
      simp only [List.length_cons] at hl
      have hcond : i < full.length ∧ 0 < k := by
        constructor
        · omega
        · exact hk
      rw [reconstructLoop, dif_pos hcond]
      have hmaj0 := hm 0 (by simp)
      simp only [Nat.zero_mul, Nat.add_zero, List.getD_cons_zero] at hmaj0
      rw [majority_vote_byte_of_strict full k acc ((full.drop i).take k) d hmaj0]
      rw [ih full (i + k) (acc ++ [d]) (by omega)]
      · simp
      · intro j hj
        have hja := hm (j + 1) (by simp only [List.length_cons]; omega)
        have harith : i + (j + 1) * k = i + k + j * k := by ring
        rw [harith] at hja
        simpa using hja

theorem getD_take (l : List Nat) (n m d : Nat) (h : m < n) :
    (l.take n).getD m d = l.getD m d := by
  simp [List.getD, List.getElem?_take, h]

theorem getD_range_map (f : Nat → List Nat) (n j : Nat) (h : j < n) :
    ((List.range n).map f).getD j [] = f j := by
  rw [List.getD_eq_getElem _ _ (by simpa using h)]
  simp [h]

theorem chunksOf_uniform (n : Nat) (hn : 0 < n) :
    ∀ (k : Nat) (c : List Nat), c.length = k * n →
      chunksOf n c = (List.range k).map (fun t => (c.drop (t * n)).take n) := by
  intro k
  induction k with
  | zero =>
      intro c hc
      rw [chunksOf, dif_neg]
      · simp
      · rintro ⟨_, h2⟩
        exact h2 (List.length_eq_zero.mp (by simpa using hc))
  | succ k ih =>
      intro c hc
      have hcne : c ≠ [] := by
        intro h
        rw [h] at hc
        simp only [List.length_nil] at hc
        rcases Nat.mul_eq_zero.mp hc.symm with h1 | h1 <;> omega
      rw [chunksOf, dif_pos ⟨hn, hcne⟩]
      have hkk : (k + 1) * n = k * n + n := by ring
      rw [ih (c.drop n) (by rw [List.length_drop, hc]; omega)]
      rw [List.range_succ_eq_map, List.map_cons, List.map_map]
      simp only [Nat.zero_mul, List.drop_zero]
      congr 1
      apply List.map_congr_left
      intro t _
      simp only [Function.comp_apply]
      rw [List.drop_drop]
      congr 2
      simp only [Nat.succ_eq_add_one]
      ring

theorem zipTranspose_uniform :
    ∀ (m : Nat) (rows : List (List Nat)), rows ≠ [] →
      (∀ r ∈ rows, r.length = m) →
      zipTranspose rows
        = (List.range m).map (fun j => rows.map (fun r => r.getD j 0)) := by
  intro m
  induction m with
  | zero =>
      intro rows hne hlen
      rw [zipTranspose, dif_neg]
      · simp
      · rintro ⟨_, hall⟩
        cases rows with
        | nil => exact hne rfl
        | cons r rs =>
            have h0 := hlen r (List.mem_cons_self r rs)
            have hr : r = [] := List.length_eq_zero.mp h0
            subst hr
            simp at hall
  | succ m ih =>
      intro rows hne hlen
      have hall : rows.all (fun l => ¬ l.isEmpty) = true := by
        rw [List.all_eq_true]
        intro r hr
        have hl := hlen r hr
        cases r with
        | nil => simp at hl
        | cons x xs => simp
      rw [zipTranspose, dif_pos ⟨hne, hall⟩]
      rw [ih (rows.map List.tail) (by simpa using hne) (by
        intro r hr
        obtain ⟨r0, hr0, hre⟩ := List.mem_map.mp hr
        have hl := hlen r0 hr0
        rw [← hre]
        cases r0 with
        | nil => simp at hl
        | cons x xs => simpa using hl)]
      rw [List.range_succ_eq_map, List.map_cons, List.map_map]
      congr 1
      · apply List.map_congr_left
        intro r _
        cases r <;> rfl
      · apply List.map_congr_left
        intro j _
        simp only [Function.comp_apply, List.map_map]
        apply List.map_congr_left
        intro r _
        cases r <;> simp [List.getD]

theorem flatten_uniform_length (k : Nat) :
    ∀ rows : List (List Nat), (∀ r ∈ rows, r.length = k) →
      rows.flatten.length = rows.length * k := by
  intro rows
  induction rows with
  | nil => simp
  | cons r rs ih =>
      intro h
      simp only [List.flatten_cons, List.length_append, List.length_cons]
      rw [h r (List.mem_cons_self r rs),
        ih (fun x hx => h x (List.mem_cons_of_mem r hx))]
      ring

theorem flatten_group_extract (k : Nat) :
    ∀ (rows : List (List Nat)), (∀ r ∈ rows, r.length = k) →
      ∀ j, j < rows.length →
        (rows.flatten.drop (j * k)).take k = rows.getD j [] := by
  intro rows
  induction rows with
  | nil =>
      intro _ j hj
      simp at hj
  | cons r rs ih =>
      intro h j hj
      cases j with
      | zero =>
          simp only [Nat.zero_mul, List.drop_zero, List.flatten_cons,
            List.getD_cons_zero]
          exact List.take_left' (h r (List.mem_cons_self r rs))
      | succ j =>
          simp only [List.flatten_cons, List.getD_cons_succ]
          have harith : (j + 1) * k = k + j * k := by ring
          rw [harith, ← List.drop_drop,
            List.drop_left' (h r (List.mem_cons_self r rs))]
          exact ih (fun x hx => h x (List.mem_cons_of_mem r hx)) j
            (by simpa using hj)

/-- C8 (amended): majority-vote reconstruction recovers `D` from any
corruption of the repetition-expanded buffer in which, for every byte
position, the original byte still holds a strict majority of its `k`
copies — in `byte_per_byte` mode unconditionally, in `block` mode only for
`D ≠ []` (reconstructing an empty block-mode buffer raises `ValueError`
via `range(0, 0, 0)`). -/
theorem claim_C8_majority_reconstruction_amended
    (dd : Nat → List Nat → List Nat) (f : Frac) (D : List Nat) (k : Nat)
    (mode : List Char) (hk1 : 1 < k)
    (hmode : pyLower mode = "byte_per_byte".data
      ∨ pyLower mode = "block".data)
    (hne : pyLower mode = "byte_per_byte".data ∨ D ≠ [])
    (c : List Nat) (hclen : c.length = k * D.length)
    (hmaj : ∀ j, j < D.length →
      (repGroup mode c k D.length j).length
        < 2 * (repGroup mode c k D.length j).count (D.getD j 0)) :
    static_reconstruct_redundancy dd c k mode "none".data f = some D := by
  have hk0 : 0 < k := by omega
  have a1 : ¬(pyLower "none".data = "reed_solomon".data
      ∨ pyLower "none".data = "rs".data) := by decide
  have a2 : ¬(pyLower "none".data = "hamming".data
      ∨ pyLower "none".data = "ham".data) := by decide
  have a3 : (pyLower "none".data = "none".data
      ∨ pyLower "none".data = "no".data) := by decide
  rcases hmode with hb | hbl
  · have hrec : reconstructLoop c k 0 [] = D := by
      have hs := reconstructLoop_spec k hk0 D c 0 []
        (by simpa using hclen)
        (by
          intro j hj
          have hmj := hmaj j hj
          rw [repGroup, if_pos hb] at hmj
          simpa using hmj)
      simpa using hs
    unfold static_reconstruct_redundancy
    rw [if_pos hk1, if_pos hb]
    dsimp only
    rw [hrec, if_neg a1, if_neg a2, if_pos a3]
  · have hnb : ¬ pyLower mode = "byte_per_byte".data := by
      rw [hbl]
      decide
    have hD : D ≠ [] := hne.resolve_left hnb
    have hn : 0 < D.length := List.length_pos.mpr hD
    have hcs : c.length / k = D.length := by
      rw [hclen]
      exact Nat.mul_div_cancel_left D.length hk0
    have hrow_uniform : ∀ r ∈ (List.range k).map
        (fun t => (c.drop (t * D.length)).take D.length),
        r.length = D.length := by
      intro r hr
      obtain ⟨t, ht, hre⟩ := List.mem_map.mp hr
      rw [← hre, List.length_take, List.length_drop, hclen]
      have ht' : t < k := List.mem_range.mp ht
      have h1 : (t + 1) * D.length ≤ k * D.length :=
        Nat.mul_le_mul_right D.length (by omega)
      have h2 : (t + 1) * D.length = t * D.length + D.length := by ring
      omega
    have hrows_ne : (List.range k).map
        (fun t => (c.drop (t * D.length)).take D.length) ≠ [] := by
      intro h
      have h0 : ((List.range k).map
          (fun t => (c.drop (t * D.length)).take D.length)).length = 0 := by
        rw [h]
        rfl
      simp only [List.length_map, List.length_range] at h0
      omega
    have htrans := zipTranspose_uniform D.length
      ((List.range k).map (fun t => (c.drop (t * D.length)).take D.length))
      hrows_ne hrow_uniform
    have hT_uniform : ∀ r ∈ (List.range D.length).map
        (fun j => ((List.range k).map
          (fun t => (c.drop (t * D.length)).take D.length)).map
            (fun r => r.getD j 0)), r.length = k := by
      intro r hr
      obtain ⟨j, _, hre⟩ := List.mem_map.mp hr
      rw [← hre]
      simp
    have hflat_group : ∀ j, j < D.length →
        ((((List.range D.length).map
            (fun j => ((List.range k).map
              (fun t => (c.drop (t * D.length)).take D.length)).map
                (fun r => r.getD j 0))).flatten.drop (j * k)).take k)
          = repGroup mode c k D.length j := by
      intro j hj
      rw [flatten_group_extract k _ hT_uniform j (by simpa using hj)]
      rw [getD_range_map _ D.length j hj]
      rw [List.map_map]
      rw [repGroup, if_neg hnb]
      apply List.map_congr_left
      intro t _
      simp only [Function.comp_apply]
      rw [getD_take _ _ _ _ hj, getD_drop]
    have hflat_len : ((List.range D.length).map
        (fun j => ((List.range k).map
          (fun t => (c.drop (t * D.length)).take D.length)).map
            (fun r => r.getD j 0))).flatten.length = D.length * k := by
      rw [flatten_uniform_length k _ hT_uniform]
      simp
    have hrec : reconstructLoop ((List.range D.length).map
        (fun j => ((List.range k).map
          (fun t => (c.drop (t * D.length)).take D.length)).map
            (fun r => r.getD j 0))).flatten k 0 [] = D := by
      have hs := reconstructLoop_spec k hk0 D _ 0 []
        (by rw [hflat_len]; ring)
        (by
          intro j hj
          have hmj := hmaj j hj
          rw [← hflat_group j hj] at hmj
          simpa using hmj)
      simpa using hs
    unfold static_reconstruct_redundancy
    rw [if_pos hk1, if_neg hnb, if_pos hbl, hcs]
    rw [if_neg (by omega : ¬ D.length = 0)]
    rw [chunksOf_uniform D.length hn k c hclen, htrans]
    dsimp only
    rw [hrec, if_neg a1, if_neg a2, if_pos a3]

/-- C8 (counterexample to the claim as stated): for the empty byte string in
block mode — an instance of "every byte string D, both modes" with the
corruption condition vacuously true — reconstruction does not return `D`:
`chunk_size = len(data) // k = 0` makes `range(0, 0, 0)` raise `ValueError`,
although `static_apply_redundancy` happily produced the buffer. -/
theorem claim_C8_counterexample :
    static_apply_redundancy (fun _ m => m) [] 3 "block".data "none".data
        ⟨1, 10⟩ = some []
    ∧ static_reconstruct_redundancy (fun _ m => m) [] 3 "block".data
        "none".data ⟨1, 10⟩ = none := by decide

theorem claim_C8_witness :
    (∀ j, j < [5, 9].length →
      (repGroup "byte_per_byte".data [5, 5, 7, 9, 0, 9] 3 [5, 9].length
          j).length
        < 2 * (repGroup "byte_per_byte".data [5, 5, 7, 9, 0, 9] 3
            [5, 9].length j).count ([5, 9].getD j 0))
    ∧ static_reconstruct_redundancy (fun _ m => m) [5, 5, 7, 9, 0, 9] 3
        "byte_per_byte".data "none".data ⟨1, 10⟩ = some [5, 9] :=
  ⟨by decide, claim_C8_majority_reconstruction_amended (fun _ m => m) ⟨1, 10⟩
    [5, 9] 3 "byte_per_byte".data (by decide) (Or.inl (by decide))
    (Or.inl (by decide)) [5, 5, 7, 9, 0, 9] (by decide) (by decide)⟩

end IST
